import Mathlib

/-!
Verification development for the SERAEX media-library organiser.

The TypeScript sources are shallowly embedded: pure computations become Lean
functions, the durable-workflow control points become explicit state machines,
filesystems become finite path-to-size maps, and JavaScript numbers become `ℚ`
(file sizes, confidences) or `ℕ` (character counts, episode numbers).
Filesystem paths are modelled as lists of path segments.
-/

namespace Seraex

/-- A filesystem path, as the list of its segments. -/
abbrev Path := List String

-- ════════════════════════════════════════════════════════════════════
-- File-name helpers (src/domains/media/workflows/organize-library.ts)
-- ════════════════════════════════════════════════════════════════════

/-- The characters removed by the file-name sanitizer
(regex character class in `sanitizeFileName`). -/
def isInvalidFileChar (c : Char) : Bool :=
  c = '<' || c = '>' || c = ':' || c = '"' || c = '/' || c = '\\' ||
  c = '|' || c = '?' || c = '*'

/-- Whitespace as matched by the JavaScript regex class used in
`sanitizeFileName` (the core ASCII cases of a JS whitespace class; the
Unicode space characters behave identically in all proofs below). -/
def isWsChar (c : Char) : Bool :=
  c = ' ' || c = '\t' || c = '\n' || c = '\r' || c = '\x0b' || c = '\x0c'

/-- `.replace(/\s+/g, ' ')`, one character at a time: `inRun` records
whether the previous character belonged to a whitespace run whose single
replacement space has already been emitted. -/
def collapseWsAux : Bool → List Char → List Char
  | _, [] => []
  | inRun, c :: rest =>
    if isWsChar c then
      if inRun then collapseWsAux true rest
      else ' ' :: collapseWsAux true rest
    else c :: collapseWsAux false rest

/-- `.replace(/\s+/g, ' ')`: every maximal whitespace run becomes a single
space. -/
def collapseWs (l : List Char) : List Char := collapseWsAux false l

/-- `.trim()`: drop leading and trailing whitespace. -/
def trimWs (l : List Char) : List Char :=
  ((l.dropWhile isWsChar).reverse.dropWhile isWsChar).reverse

/-- Character-level body of `sanitizeFileName`: remove invalid characters,
collapse whitespace runs to a single space, trim. -/
def sanitizeChars (l : List Char) : List Char :=
  trimWs (collapseWs (l.filter (fun c => !isInvalidFileChar c)))

/-- `sanitizeFileName` from organize-library.ts (also inlined as the
`cleanShowName` computation in the `organizeLibrary` workflow):
`name.replace(/[<>:"/\\|?*]/g, '').replace(/\s+/g, ' ').trim()`. -/
def sanitizeFileName (name : String) : String :=
  (sanitizeChars name.toList).asString

-- ════════════════════════════════════════════════════════════════════
-- Proportional subtitle truncation (LLM matcher activity, `matchEpisodes`)
-- ════════════════════════════════════════════════════════════════════

/-- Safety limit on the total subtitle text passed to the LLM. -/
def MAX_TOTAL_CHARS : ℕ := 500000

/-- An extracted-subtitles record (shared/types.ts `ExtractedSubtitles`). -/
structure ExtractedSubtitles where
  filePath : String
  fileName : String
  content : String
  source : String
  language : Option String
deriving DecidableEq, Repr

/-- `Math.floor((sub.content.length / totalChars) * MAX_TOTAL_CHARS)` from
`matchEpisodes`, over exact rationals. -/
def allowedChars (len totalChars : ℕ) : ℕ :=
  ⌊((len : ℚ) / (totalChars : ℚ)) * (MAX_TOTAL_CHARS : ℚ)⌋₊

/-- `content.slice(0, allowedChars)`: keep the first `n` characters. -/
def sliceContent (content : String) (n : ℕ) : String :=
  (content.toList.take n).asString

/-- The per-file subtitle text that `matchEpisodes` embeds into the prompt
(`fileSnippets` construction): if the total length exceeds
`MAX_TOTAL_CHARS`, each file is proportionally truncated, otherwise the
content is passed unchanged. -/
def truncatedContents (subtitles : List ExtractedSubtitles) : List String :=
  let totalChars := (subtitles.map (fun sub => sub.content.length)).sum
  let needsTruncation := MAX_TOTAL_CHARS < totalChars
  subtitles.map (fun sub =>
    if needsTruncation then
      sliceContent sub.content (allowedChars sub.content.length totalChars)
    else sub.content)

-- ════════════════════════════════════════════════════════════════════
-- Episode detection (src/domains/media/activities/subtitles.ts)
-- ════════════════════════════════════════════════════════════════════

/-- `name.startsWith('_')`, structurally on the character list. -/
def startsWithUnderscore (name : String) : Bool :=
  match name.toList with
  | '_' :: _ => true
  | _ => false

/-- ASCII `toLowerCase` on one character (the only case the video-extension
comparison exercises). -/
def charLower (c : Char) : Char :=
  if 'A' ≤ c ∧ c ≤ 'Z' then Char.ofNat (c.toNat + 32) else c

/-- `String.prototype.toLowerCase`, structurally on the character list. -/
def strLower (s : String) : String := (s.toList.map charLower).asString

/-- `path.extname(name)` for a plain file name: the part from the last dot,
unless the only dot is the leading character (Node semantics). -/
def extnameStr (name : String) : String :=
  let cs := name.toList
  let pre := cs.reverse.takeWhile (fun c => c ≠ '.')
  if pre.length + 1 < cs.length then ('.' :: pre.reverse).asString else ""

/-- The `VIDEO_EXTENSIONS` set. -/
def VIDEO_EXTENSIONS : List String :=
  [".mkv", ".mp4", ".avi", ".webm", ".m4v", ".mov", ".wmv", ".flv"]

/-- `VIDEO_EXTENSIONS.has(extname(name).toLowerCase())`. -/
def isVideoFileName (name : String) : Bool :=
  VIDEO_EXTENSIONS.contains (strLower (extnameStr name))

/-- A `SourceFileInfo` record (shared/types.ts). Sizes are in bytes. -/
structure SrcFile where
  path : Path
  relativePath : String
  name : String
  size : ℚ
deriving DecidableEq, Repr

instance : Inhabited SrcFile := ⟨⟨[], "", "", 0⟩⟩

/-- A directory tree: the input to the recursive video-file walk. -/
inductive FSEntry where
  | file (name : String) (size : ℚ)
  | dir (name : String) (entries : List FSEntry)

mutual

/-- One step of `listVideoFilesRecursive`: entries whose name starts with
`_` are skipped (files and directories alike); directories are recursed
into; files with a video extension are collected. -/
def walkEntry (dirPath : Path) : FSEntry → List SrcFile
  | .file name size =>
    if startsWithUnderscore name then []
    else if isVideoFileName name then [⟨dirPath ++ [name], name, name, size⟩]
    else []
  | .dir name entries =>
    if startsWithUnderscore name then []
    else walkEntries (dirPath ++ [name]) entries

/-- `listVideoFilesRecursive` over the entries of one directory. -/
def walkEntries (dirPath : Path) : List FSEntry → List SrcFile
  | [] => []
  | e :: es => walkEntry dirPath e ++ walkEntries dirPath es

end

mutual

/-- Every file in the tree, with no skipping and no extension filter
(used only to state walk characterisations). -/
def allFilesEntry (dirPath : Path) : FSEntry → List SrcFile
  | .file name size => [⟨dirPath ++ [name], name, name, size⟩]
  | .dir name entries => allFilesEntries (dirPath ++ [name]) entries

/-- `allFilesEntry` over the entries of one directory. -/
def allFilesEntries (dirPath : Path) : List FSEntry → List SrcFile
  | [] => []
  | e :: es => allFilesEntry dirPath e ++ allFilesEntries dirPath es

end

/-- Modelled from the spec: “Walks `folder` recursively, skipping any
subdirectory whose name begins with `_` … Collects files whose extension
(case-insensitive) is in the video-extension set.”  Under this reading only
the contents of `_`-prefixed *subdirectories* are excluded; a `_`-prefixed
*file* is still collected. -/
def specVideoFiles (rootPath : Path) (entries : List FSEntry) : List SrcFile :=
  (allFilesEntries rootPath entries).filter (fun f =>
    isVideoFileName f.name &&
      (f.path.drop rootPath.length).dropLast.all (fun seg => !startsWithUnderscore seg))

/-- The walk's actual exclusion rule: no component of the path below the
root — the file name included — starts with `_`. -/
def walkKeeps (rootPath : Path) (f : SrcFile) : Bool :=
  isVideoFileName f.name &&
    (f.path.drop rootPath.length).all (fun seg => !startsWithUnderscore seg)

/-- Detection confidence. -/
inductive Confidence where
  | high
  | medium
  | low
deriving DecidableEq, Repr

/-- An `EpisodeDetectionResult` (shared/types.ts).  `clusterSizeRange` is the
pair `[Math.min(...sizes), Math.max(...sizes)]`; `none` models the JS
infinities produced on an empty episode list. -/
structure EpisodeDetectionResult where
  episodes : List SrcFile
  nonEpisodes : List SrcFile
  confidence : Confidence
  clusterMedianSize : ℚ
  clusterSizeRange : Option ℚ × Option ℚ
deriving DecidableEq, Repr

/-- `Math.floor((file.size - minSize) / binWidth)`. -/
def binIdx (minSize binWidth sz : ℚ) : ℤ := ⌊(sz - minSize) / binWidth⌋

/-- `bins.get(binIndex)!.push(file)` / `bins.set(binIndex, [file])` on a JS
`Map`, modelled as an insertion-ordered association list. -/
def insertIntoBins : List (ℤ × List SrcFile) → ℤ → SrcFile → List (ℤ × List SrcFile)
  | [], k, f => [(k, [f])]
  | (k', fs) :: rest, k, f =>
    if k' = k then (k', fs ++ [f]) :: rest
    else (k', fs) :: insertIntoBins rest k f

/-- The bin-building loop of `detectEpisodeFiles`. -/
def buildBins (minSize binWidth : ℚ) (files : List SrcFile) : List (ℤ × List SrcFile) :=
  files.foldl (fun bins f => insertIntoBins bins (binIdx minSize binWidth f.size) f) []

/-- The largest-bin selection loop: iterate the map's values in insertion
order, keeping the current bin only on a strictly larger count. -/
def pickLargestBin (bins : List (ℤ × List SrcFile)) : List SrcFile :=
  bins.foldl (fun best kv => if best.length < kv.2.length then kv.2 else best) []

/-- Median of an already-sorted list of sizes, exactly as computed in
`detectEpisodeFiles` (the `getD` default is never reached: the selected
cluster is non-empty). -/
def medianOfSorted (clusterSizes : List ℚ) : ℚ :=
  let medianIdx := clusterSizes.length / 2
  if clusterSizes.length % 2 = 0 then
    (clusterSizes.getD (medianIdx - 1) 0 + clusterSizes.getD medianIdx 0) / 2
  else clusterSizes.getD medianIdx 0

/-- The main (`n ≥ 3`) branch of `detectEpisodeFiles`: size histogram,
largest-bin selection, median, ±20 % window. -/
def detectClustered (videoFiles : List SrcFile) : EpisodeDetectionResult :=
  let sorted := videoFiles.mergeSort (fun a b => decide (a.size ≤ b.size))
    let sizes := sorted.map (fun f => f.size)
    let minSize := sizes.headD 0
    let maxSize := sizes.getLastD 0
    let range := maxSize - minSize
    let binWidth := max (50 * 1024 * 1024) (range / 20)
    let bins := buildBins minSize binWidth sorted
    let largestBin := pickLargestBin bins
    let clusterSizes := (largestBin.map (fun f => f.size)).mergeSort (fun a b => decide (a ≤ b))
    let clusterMedian := medianOfSorted clusterSizes
    let lowerBound := clusterMedian * 0.8
    let upperBound := clusterMedian * 1.2
    let inWindow := fun (f : SrcFile) => decide (lowerBound ≤ f.size) && decide (f.size ≤ upperBound)
    let episodes := videoFiles.filter inWindow
    let nonEpisodes := videoFiles.filter (fun f => !inWindow f)
    let episodeRatio := (episodes.length : ℚ) / (videoFiles.length : ℚ)
    let confidence : Confidence :=
      if 6 ≤ episodes.length ∧ (0.6 : ℚ) < episodeRatio then .high
      else if 3 ≤ episodes.length then .medium
      else .low
    ⟨episodes, nonEpisodes, confidence, clusterMedian,
      ((episodes.map (fun f => f.size)).min?, (episodes.map (fun f => f.size)).max?)⟩

/-- `detectEpisodeFiles`, as a function of the walked video-file list. -/
def detectEpisodeFiles (videoFiles : List SrcFile) : EpisodeDetectionResult :=
  if videoFiles.isEmpty then
    ⟨[], [], .low, 0, (some 0, some 0)⟩
  else if videoFiles.length ≤ 2 then
    ⟨videoFiles, [],
      if videoFiles.length = 1 then .medium else .low,
      (videoFiles.headD default).size,
      ((videoFiles.map (fun f => f.size)).min?, (videoFiles.map (fun f => f.size)).max?)⟩
  else
    detectClustered videoFiles


-- The named components of the histogram pipeline, as abbreviations of the
-- expressions inside detectEpisodeFiles (subtitles.ts 74-81): the
-- size-ascending sort, minSize, binWidth, the bin of index k, and its
-- file count.

/-- `[...videoFiles].sort((a, b) => a.size - b.size)`. -/
def sortedBySize (videoFiles : List SrcFile) : List SrcFile :=
  videoFiles.mergeSort (fun a b => decide (a.size ≤ b.size))

/-- `sizes[0]` of the sorted list (`minSize`). -/
def histMinSize (videoFiles : List SrcFile) : ℚ :=
  ((sortedBySize videoFiles).map (fun f => f.size)).headD 0

/-- `Math.max(50 * 1024 * 1024, range / 20)` (`binWidth`). -/
def histBinWidth (videoFiles : List SrcFile) : ℚ :=
  max (50 * 1024 * 1024)
    ((((sortedBySize videoFiles).map (fun f => f.size)).getLastD 0 - histMinSize videoFiles) / 20)

/-- The files assigned to bin `k`: those whose `binIndex` equals `k`. -/
def binOf (videoFiles : List SrcFile) (k : ℤ) : List SrcFile :=
  (sortedBySize videoFiles).filter
    (fun f => decide (binIdx (histMinSize videoFiles) (histBinWidth videoFiles) f.size = k))

/-- How many files land in bin `k`. -/
def binCount (videoFiles : List SrcFile) (k : ℤ) : ℕ := (binOf videoFiles k).length

/-- Three concrete video files for exercising the histogram branch. -/
def c5Files : List SrcFile :=
  [⟨["d", "a.mkv"], "a.mkv", "a.mkv", 100⟩,
   ⟨["d", "b.mkv"], "b.mkv", "b.mkv", 110⟩,
   ⟨["d", "c.mkv"], "c.mkv", "c.mkv", 120⟩]

-- ════════════════════════════════════════════════════════════════════
-- Filesystem-activity model (organize-library.ts filesystem activities)
-- ════════════════════════════════════════════════════════════════════

/-- A filesystem state: a finite map from file paths to byte sizes,
as an association list (real filesystems have no duplicate paths; the
theorems that need this carry a `Nodup` hypothesis on the keys). -/
abbrev FS := List (Path × ℕ)

/-- Size of the file stored at `p`, if any (`stat`/`access`). -/
def fsGet? (fs : FS) (p : Path) : Option ℕ :=
  (fs.find? (fun e => decide (e.1 = p))).map (fun e => e.2)

/-- Write a file (`cp` creates or overwrites the destination). -/
def fsSet (fs : FS) (p : Path) (v : ℕ) : FS := (p, v) :: fs

/-- The files below a directory, i.e. the recursive walk
`listAllFilesRecursive(directory)` over this map model. -/
def filesUnder (dir : Path) (fs : FS) : FS :=
  fs.filter (fun e => decide (e.1.take dir.length = dir) && decide (dir.length < e.1.length))

/-- `path.relative(root, p)` for a path lying below `root`. -/
def relSegs (root p : Path) : Path := p.drop root.length

/-- Total byte size of a file list. -/
def sumSizes (l : FS) : ℕ := (l.map (fun e => e.2)).sum

/-- `verifyOutputIntegrity(sourceDir, outputDir)`: every file of the source
walk must exist at the same relative path below the output dir with the
same size; the relative paths of violations are collected in
`missingFiles`, and `verified` holds iff there are none. -/
def verifyOutputIntegrity (fs : FS) (sourceDir outputDir : Path) : Bool × List Path :=
  let sourceFiles := filesUnder sourceDir fs
  let missingFiles := sourceFiles.filterMap (fun e =>
    match fsGet? fs (outputDir ++ relSegs sourceDir e.1) with
    | some destSize => if destSize ≠ e.2 then some (relSegs sourceDir e.1) else none
    | none => some (relSegs sourceDir e.1))
  (missingFiles.isEmpty, missingFiles)

-- ════════════════════════════════════════════════════════════════════
-- Plex naming and copy-rename (organize-library.ts `copyEpisodeToWorkDir`)
-- ════════════════════════════════════════════════════════════════════

/-- `String(n).padStart(2, '0')`. -/
def padTwo (n : ℕ) : String :=
  let s := toString n
  (List.replicate (2 - s.length) '0').asString ++ s

/-- Title information of an AniList entry. -/
structure TitleInfo where
  romaji : String
  english : Option String
  native : Option String
deriving DecidableEq, Repr

/-- An `AnimeSearchResult` (shared/types.ts), the fields used by renaming. -/
structure AnimeSearchResult where
  anilistId : ℕ
  title : TitleInfo
  episodes : Option ℕ
  format : String
  status : String
deriving DecidableEq, Repr

/-- An `EpisodeMatch` (shared/types.ts). -/
structure EpisodeMatch where
  fileName : String
  filePath : Path
  seasonNumber : ℕ
  episodeNumber : ℕ
  episodeTitle : String
  confidence : ℚ
  reasoning : String
deriving DecidableEq, Repr

/-- A `RenamedFile` (shared/types.ts). -/
structure RenamedFile where
  originalPath : Path
  originalRelativePath : Path
  newPath : Path
  newFileName : String
  seasonNumber : ℕ
  episodeNumber : ℕ
deriving DecidableEq, Repr

/-- Plex naming: `"<Show> - S<ss>E<ee>[ - <Title>].<ext>"` (the season and
episode strings arrive already padded, exactly as in the source). -/
def plexFileName (showName seasonNum episodeNum episodeTitle ext : String) : String :=
  if episodeTitle ≠ "" then
    showName ++ " - S" ++ seasonNum ++ "E" ++ episodeNum ++ " - " ++ episodeTitle ++ ext
  else
    showName ++ " - S" ++ seasonNum ++ "E" ++ episodeNum ++ ext

/-- The part of a Plex file name after the `E<ee>` token: the optional
` - <Title>` followed by the extension. -/
def plexTail (episodeTitle ext : String) : String :=
  if episodeTitle ≠ "" then " - " ++ episodeTitle ++ ext else ext

/-- The `RenamedFile` record built by `copyEpisodeToWorkDir`; it depends only
on the match, the anime entry and the two directories (never on the
filesystem state). -/
def plexRecord (m : EpisodeMatch) (anime : AnimeSearchResult)
    (episodesDir seriesRootDir : Path) : RenamedFile :=
  let ext := extnameStr (m.filePath.getLastD "")
  let showName := sanitizeFileName (anime.title.english.getD anime.title.romaji)
  let episodeNum := padTwo m.episodeNumber
  let seasonNum := padTwo m.seasonNumber
  let episodeTitle := sanitizeFileName m.episodeTitle
  let newFileName := plexFileName showName seasonNum episodeNum episodeTitle ext
  let seasonDir := episodesDir ++ ["Season " ++ seasonNum]
  { originalPath := m.filePath
    originalRelativePath := relSegs seriesRootDir m.filePath
    newPath := seasonDir ++ [newFileName]
    newFileName := newFileName
    seasonNumber := m.seasonNumber
    episodeNumber := m.episodeNumber }

/-- `copyEpisodeToWorkDir`: dry runs do nothing; if the destination already
exists the copy is skipped; otherwise the source is copied to
`<episodesDir>/Season <ss>/<newFileName>`.  A missing source file is the
`ENOENT` error of the underlying `cp`. -/
def copyEpisodeToWorkDir (fs : FS) (m : EpisodeMatch) (anime : AnimeSearchResult)
    (episodesDir seriesRootDir : Path) (dryRun : Bool) :
    Except String (FS × RenamedFile) :=
  let record := plexRecord m anime episodesDir seriesRootDir
  if dryRun then .ok (fs, record)
  else
    match fsGet? fs record.newPath with
    | some _ => .ok (fs, record)
    | none =>
      match fsGet? fs m.filePath with
      | some size => .ok (fsSet fs record.newPath size, record)
      | none => .error "ENOENT"

-- ════════════════════════════════════════════════════════════════════
-- Parsing the S<ss>E<ee> token back out of a produced file name
-- ════════════════════════════════════════════════════════════════════

/-- Numeric value of a digit character. -/
def digitVal (c : Char) : ℕ := c.toNat - 48

/-- Modelled from the spec: “parsing `S<ss>E<ee>` from its basename”.
The repository's own staging code matches basenames against the regex
`- S(\d{2})E\d{2}` (a dash, a space, `S`, two digits, `E`, two digits);
this is that pattern with both two-digit groups captured, attempted at one
start position. -/
def tryParseSToken : List Char → Option (ℕ × ℕ)
  | '-' :: ' ' :: 'S' :: d1 :: d2 :: 'E' :: e1 :: e2 :: _ =>
    if d1.isDigit && d2.isDigit && e1.isDigit && e2.isDigit then
      some (10 * digitVal d1 + digitVal d2, 10 * digitVal e1 + digitVal e2)
    else none
  | _ => none

/-- Modelled from the spec: first match of the token pattern, scanning left
to right like `String.prototype.match`. -/
def scanSToken : List Char → Option (ℕ × ℕ)
  | [] => none
  | c :: rest =>
    match tryParseSToken (c :: rest) with
    | some r => some r
    | none => scanSToken rest

/-- Parse the `S<ss>E<ee>` token out of a file name. -/
def parseSeasonEpisode (fileName : String) : Option (ℕ × ℕ) :=
  scanSToken fileName.toList

/-- `cleanBefore xs ys = true` iff no token match starts inside `xs` when
`ys` is the remainder of the scanned text. -/
def cleanBefore : List Char → List Char → Bool
  | [], _ => true
  | c :: rest, ys => (tryParseSToken (c :: rest ++ ys)).isNone && cleanBefore rest ys

-- ════════════════════════════════════════════════════════════════════
-- Disc-coordinator review loop (process-folder workflow)
-- ════════════════════════════════════════════════════════════════════

/-- An `AnimeEpisode` (shared/types.ts). -/
structure AnimeEpisode where
  number : ℕ
  title : Option String
  description : Option String
deriving DecidableEq, Repr

/-- A `SeasonInfo` (shared/types.ts). -/
structure SeasonInfo where
  seasonNumber : ℕ
  anilistId : ℕ
  title : TitleInfo
  episodeCount : ℕ
  episodes : List AnimeEpisode
deriving DecidableEq, Repr

/-- A `SeriesMetadata` (shared/types.ts). -/
structure SeriesMetadata where
  seriesName : String
  seasons : List SeasonInfo
  totalCoreEpisodes : ℕ
deriving DecidableEq, Repr

/-- A `ReviewItem` (shared/types.ts); the season/episode lists offered for
manual selection are omitted from the model (no claim touches them). -/
structure ReviewItem where
  id : String
  fileName : String
  filePath : Path
  subtitleSnippet : String
  suggestedSeasonNumber : ℕ
  suggestedEpisodeNumber : ℕ
  suggestedEpisodeTitle : String
  confidence : ℚ
  reasoning : String
deriving DecidableEq, Repr

/-- A `ReviewDecision` (shared/types.ts). -/
structure ReviewDecision where
  reviewItemId : String
  approved : Bool
  correctedSeasonNumber : Option ℕ
  correctedEpisodeNumber : Option ℕ
deriving DecidableEq, Repr

/-- The review-related workflow state of `processFolder`:
the emitted review items and the `resolvedReviews` map (a JS `Map`,
modelled as an insertion-ordered association list). -/
structure ReviewState where
  pendingReviews : List ReviewItem
  resolvedReviews : List (String × ReviewDecision)
deriving DecidableEq, Repr

/-- `Map.get` on `resolvedReviews`. -/
def getDecision? (st : ReviewState) (id : String) : Option ReviewDecision :=
  (st.resolvedReviews.find? (fun e => decide (e.1 = id))).map (fun e => e.2)

/-- `Map.set`: overwrite the entry for the key in place, else append. -/
def mapSet : List (String × ReviewDecision) → String → ReviewDecision →
    List (String × ReviewDecision)
  | [], id, d => [(id, d)]
  | e :: rest, id, d =>
    if e.1 = id then (id, d) :: rest else e :: mapSet rest id d

/-- The `reviewDecision` signal handler:
`resolvedReviews.set(decision.reviewItemId, decision)`. -/
def applyReviewDecision (st : ReviewState) (d : ReviewDecision) : ReviewState :=
  { st with resolvedReviews := mapSet st.resolvedReviews d.reviewItemId d }

/-- `Map.delete` on `resolvedReviews` (the rejection branch of the loop). -/
def deleteDecision (st : ReviewState) (id : String) : ReviewState :=
  { st with resolvedReviews := st.resolvedReviews.filter (fun e => decide (e.1 ≠ id)) }

/-- The `pendingReviews` list returned by the `getProgress` query handler:
`pendingReviews.filter(r => !resolvedReviews.has(r.id) || !resolvedReviews.get(r.id)!.approved)`. -/
def queryPendingReviews (st : ReviewState) : List ReviewItem :=
  st.pendingReviews.filter (fun r =>
    match getDecision? st r.id with
    | none => true
    | some d => !d.approved)

/-- The corrected `EpisodeMatch` built when a review decision is approved:
corrected season/episode numbers when provided, the authoritative episode
title looked up from the metadata with an `"Episode N"` fallback,
confidence `1.0`, reasoning `"User-approved"`. -/
def buildCorrectedMatch (seriesMetadata : SeriesMetadata) (review : ReviewItem)
    (decision : ReviewDecision) : EpisodeMatch :=
  let seasonNumber := decision.correctedSeasonNumber.getD review.suggestedSeasonNumber
  let episodeNumber := decision.correctedEpisodeNumber.getD review.suggestedEpisodeNumber
  let season := seriesMetadata.seasons.find? (fun s => decide (s.seasonNumber = seasonNumber))
  let episodeTitle :=
    ((season.bind (fun s => s.episodes.find? (fun e => decide (e.number = episodeNumber)))).bind
        (fun e => e.title)).getD
      ("Episode " ++ toString episodeNumber)
  { fileName := review.fileName
    filePath := review.filePath
    seasonNumber := seasonNumber
    episodeNumber := episodeNumber
    episodeTitle := episodeTitle
    confidence := 1
    reasoning := "User-approved" }

/-- One pass of the serial review loop body for item `review`: with no
stored decision the `condition` keeps the workflow suspended (`none`
outcome, state unchanged); an approved decision yields the corrected match
handed to `copyEpisodeToWorkDir`; a rejected decision is deleted so that
the operator may resubmit, and the loop waits again. -/
def processReviewStep (seriesMetadata : SeriesMetadata) (st : ReviewState)
    (review : ReviewItem) : ReviewState × Option EpisodeMatch :=
  match getDecision? st review.id with
  | none => (st, none)
  | some decision =>
    if decision.approved then
      (st, some (buildCorrectedMatch seriesMetadata review decision))
    else
      (deleteDecision st review.id, none)

/-- Concrete fixture: a one-season, two-episode series. -/
def metaFix : SeriesMetadata :=
  ⟨"Show", [⟨1, 7, ⟨"Show", some "Show", none⟩, 2,
    [⟨1, some "One", none⟩, ⟨2, some "Two", none⟩]⟩], 2⟩

/-- Concrete fixture: a low-confidence review item. -/
def reviewFix : ReviewItem :=
  ⟨"Disc 1-ep.mkv", "ep.mkv", ["root", "Disc 1", "ep.mkv"], "snippet", 1, 1, "One",
    1/2, "guess"⟩

/-- Concrete fixture: an approving decision correcting the episode number. -/
def decFix : ReviewDecision := ⟨"Disc 1-ep.mkv", true, none, some 2⟩

/-- Concrete fixture: review state with one pending item and one stored
decision. -/
def stFix : ReviewState := ⟨[reviewFix], [("Disc 1-ep.mkv", decFix)]⟩

/-- Concrete fixture: a rejecting decision for an unresolved item. -/
def rejFix : ReviewDecision := ⟨"other-id", false, none, none⟩

-- ════════════════════════════════════════════════════════════════════
-- Library coordinator, Stage 5 → Stage 6 (organize-library.ts)
-- ════════════════════════════════════════════════════════════════════

/-- The `WorkflowStage` union (shared/types.ts). -/
inductive WorkflowStage where
  | copying
  | fetchingMetadata
  | processingFolders
  | structuring
  | awaitingFinalize
  | finalizing
  | completed
  | failed
  | canceled
deriving DecidableEq, Repr

/-- The coordinator state at the Stage 5 decision point: `canFinalize` is
fixed on entry (line `canFinalize = totalFailed === 0 && allRenamedFilePaths.length > 0`),
`finalized`/`rejected` are the signal-handler flags, and `outputWritten`
records whether the Stage 6 copy loop has written below the output root. -/
structure Stage5State where
  canFinalize : Bool
  finalized : Bool
  rejected : Bool
  stage : WorkflowStage
  outputWritten : Bool
deriving DecidableEq, Repr

/-- The `finalize` signal handler: an approved decision sets `finalized`
only while `canFinalize` holds; a rejection always sets `rejected`. -/
def applyFinalizeSignal (s : Stage5State) (approved : Bool) : Stage5State :=
  if approved && s.canFinalize then { s with finalized := true }
  else if !approved then { s with rejected := true }
  else s

/-- What happens when the coordinator resumes past the
`if (canFinalize) await condition(() => finalized || rejected)` point:
a rejection makes the run `failed` and returns before Stage 6; otherwise
the workflow enters Stage 6 and the parallel copy writes the staging tree
below the output root. -/
def proceedFromAwait (s : Stage5State) : Stage5State :=
  if s.rejected then { s with stage := .failed }
  else { s with stage := .finalizing, outputWritten := true }

/-- The coordinator state on entering Stage 5:
`canFinalize = (totalFailed = 0 ∧ renamedCount > 0)`; `finalized` is
necessarily still false (the handler only sets it while `canFinalize`
holds, which is never the case before Stage 5), while a rejection signal
may already have arrived (`earlyRejected`). -/
def mkStage5State (totalFailed renamedCount : ℕ) (earlyRejected : Bool) : Stage5State :=
  { canFinalize := decide (totalFailed = 0) && decide (0 < renamedCount)
    finalized := false
    rejected := earlyRejected
    stage := .awaitingFinalize
    outputWritten := false }

/-- Small-step semantics at Stage 5: signal handlers may fire at any time;
the coordinator itself advances only when its `condition` allows — i.e.
when `canFinalize` is false (no wait is performed at all) or a finalize
flag has been set. -/
inductive Stage5Step : Stage5State → Stage5State → Prop
  | signal (s : Stage5State) (approved : Bool) :
      Stage5Step s (applyFinalizeSignal s approved)
  | proceed (s : Stage5State)
      (hstage : s.stage = .awaitingFinalize)
      (hwake : s.canFinalize = false ∨ s.finalized = true ∨ s.rejected = true) :
      Stage5Step s (proceedFromAwait s)

/-- Reachability through Stage 5 steps. -/
def Stage5Reaches (s t : Stage5State) : Prop :=
  Relation.ReflTransGen Stage5Step s t

-- ════════════════════════════════════════════════════════════════════
-- Helper lemmas
-- ════════════════════════════════════════════════════════════════════

theorem applyFinalizeSignal_canFinalize (s : Stage5State) (approved : Bool) :
    (applyFinalizeSignal s approved).canFinalize = s.canFinalize := by
  unfold applyFinalizeSignal
  split_ifs <;> rfl

theorem applyFinalizeSignal_outputWritten (s : Stage5State) (approved : Bool) :
    (applyFinalizeSignal s approved).outputWritten = s.outputWritten := by
  unfold applyFinalizeSignal
  split_ifs <;> rfl

theorem applyFinalizeSignal_finalized_mono (s : Stage5State) (approved : Bool)
    (h : s.finalized = true) : (applyFinalizeSignal s approved).finalized = true := by
  unfold applyFinalizeSignal
  split_ifs <;> simp [h]

theorem applyFinalizeSignal_finalized_new (s : Stage5State) (approved : Bool)
    (h : (applyFinalizeSignal s approved).finalized = true)
    (hold : s.finalized = false) : s.canFinalize = true := by
  unfold applyFinalizeSignal at h
  split_ifs at h with h1 h2
  · exact (Bool.and_eq_true _ _).mp h1 |>.2
  · rw [hold] at h; exact absurd h (by simp)
  · rw [hold] at h; exact absurd h (by simp)

theorem proceedFromAwait_of_rejected (s : Stage5State) (h : s.rejected = true) :
    (proceedFromAwait s).stage = WorkflowStage.failed ∧
      (proceedFromAwait s).outputWritten = s.outputWritten := by
  unfold proceedFromAwait
  rw [if_pos h]
  exact ⟨rfl, rfl⟩

theorem proceedFromAwait_canFinalize (s : Stage5State) :
    (proceedFromAwait s).canFinalize = s.canFinalize := by
  unfold proceedFromAwait
  split_ifs <;> rfl

/-- Along any Stage-5 run started with `canFinalize` set and nothing yet
written to the output root, writing to the output root implies the
`finalized` flag — which only an approved signal can raise. -/
theorem stage5_inv {init t : Stage5State}
    (hcf : init.canFinalize = true) (hout : init.outputWritten = false)
    (h : Stage5Reaches init t) :
    t.canFinalize = true ∧ (t.outputWritten = true → t.finalized = true) := by
  induction h with
  | refl => exact ⟨hcf, fun hw => absurd hw (by simp [hout])⟩
  | @tail b c hsteps step ih =>
    obtain ⟨ihcf, ihout⟩ := ih
    cases step with
    | signal approved =>
      refine ⟨by rw [applyFinalizeSignal_canFinalize]; exact ihcf, fun hw => ?_⟩
      rw [applyFinalizeSignal_outputWritten] at hw
      exact applyFinalizeSignal_finalized_mono b approved (ihout hw)
    | proceed hstage hwake =>
      refine ⟨by rw [proceedFromAwait_canFinalize]; exact ihcf, fun hw => ?_⟩
      unfold proceedFromAwait at hw ⊢
      by_cases hr : b.rejected = true
      · rw [if_pos hr] at hw ⊢
        exact ihout hw
      · rw [if_neg hr] at hw ⊢
        rcases hwake with h1 | h1 | h1
        · rw [ihcf] at h1; exact absurd h1 (by simp)
        · simpa using h1
        · exact absurd h1 hr

-- ════════════════════════════════════════════════════════════════════
-- Claim C1 — the Stage-5 finalize gate
-- ════════════════════════════════════════════════════════════════════

/-- C1, counterexample.  The claim states that Stage 5 always blocks until a
finalize signal and that no file appears under the output root before an
approved finalize.  On the code, when `canFinalize` is false (here: one
failed folder, five renamed files) the coordinator performs no wait at all:
a single coordinator step from the Stage-5 entry state, with no signal ever
received, enters Stage 6 and writes the staging tree below the output
root while `finalized` is still false. -/
theorem C1_counterexample :
    (mkStage5State 1 5 false).finalized = false ∧
      (mkStage5State 1 5 false).rejected = false ∧
      Stage5Step (mkStage5State 1 5 false) (proceedFromAwait (mkStage5State 1 5 false)) ∧
      (proceedFromAwait (mkStage5State 1 5 false)).stage = WorkflowStage.finalizing ∧
      (proceedFromAwait (mkStage5State 1 5 false)).outputWritten = true ∧
      (proceedFromAwait (mkStage5State 1 5 false)).finalized = false := by
  refine ⟨rfl, rfl, Stage5Step.proceed _ rfl (Or.inl (by decide)), ?_, ?_, ?_⟩ <;> decide

/-- C1, amended: *when `canFinalize` holds on entering Stage 5* (no folder
failed and at least one file was renamed) the workflow blocks until a
finalize signal: output is written only after `finalized` was raised, which
only an approved signal received while `canFinalize` holds can do; a
rejection leads to `failed` without touching the output root; and while no
signal flag is set the coordinator cannot advance.  When `canFinalize` is
false the coordinator instead proceeds to Stage 6 without any signal
(see the counterexample). -/
theorem C1_stage5_finalize_gate (totalFailed renamedCount : ℕ) (earlyRejected : Bool)
    (hok : totalFailed = 0) (hpos : 0 < renamedCount) :
    (∀ t, Stage5Reaches (mkStage5State totalFailed renamedCount earlyRejected) t →
        t.outputWritten = true → t.finalized = true) ∧
    (∀ t t', Stage5Step t t' → t'.finalized = true → t.finalized = false →
        t.canFinalize = true) ∧
    (∀ t : Stage5State, t.rejected = true →
        (proceedFromAwait t).stage = WorkflowStage.failed ∧
        (proceedFromAwait t).outputWritten = t.outputWritten) ∧
    (∀ t t' : Stage5State, t.canFinalize = true → t.finalized = false →
        t.rejected = false → Stage5Step t t' →
        ∃ approved, t' = applyFinalizeSignal t approved) := by
  have hcf : (mkStage5State totalFailed renamedCount earlyRejected).canFinalize = true := by
    simp [mkStage5State, hok, hpos]
  refine ⟨?_, ?_, ?_, ?_⟩
  · intro t ht hw
    exact (stage5_inv hcf rfl ht).2 hw
  · intro t t' hstep hnew hold
    cases hstep with
    | signal approved => exact applyFinalizeSignal_finalized_new t approved hnew hold
    | proceed hstage hwake =>
      unfold proceedFromAwait at hnew
      split_ifs at hnew <;> rw [hold] at hnew <;> exact absurd hnew (by simp)
  · intro t ht
    exact proceedFromAwait_of_rejected t ht
  · intro t t' hcf' hfin hrej hstep
    cases hstep with
    | signal approved => exact ⟨approved, rfl⟩
    | proceed hstage hwake =>
      rcases hwake with h1 | h1 | h1
      · rw [hcf'] at h1; exact absurd h1 (by simp)
      · rw [hfin] at h1; exact absurd h1 (by simp)
      · rw [hrej] at h1; exact absurd h1 (by simp)

/-- C1 witness: the amended gate instantiated at a run with no failed
folders and one renamed file. -/
theorem C1_witness :
    (∀ t, Stage5Reaches (mkStage5State 0 1 false) t →
        t.outputWritten = true → t.finalized = true) ∧
    (∀ t t', Stage5Step t t' → t'.finalized = true → t.finalized = false →
        t.canFinalize = true) ∧
    (∀ t : Stage5State, t.rejected = true →
        (proceedFromAwait t).stage = WorkflowStage.failed ∧
        (proceedFromAwait t).outputWritten = t.outputWritten) ∧
    (∀ t t' : Stage5State, t.canFinalize = true → t.finalized = false →
        t.rejected = false → Stage5Step t t' →
        ∃ approved, t' = applyFinalizeSignal t approved) :=
  C1_stage5_finalize_gate 0 1 false rfl (by decide)

-- ── Sanitizer lemmas ─────────────────────────────────────────────────

theorem collapseWsAux_mem (c : Char) (l : List Char) :
    ∀ (b : Bool), c ∈ collapseWsAux b l →
      (c ∈ l ∧ isWsChar c = false) ∨ c = ' ' := by
  induction l with
  | nil => intro b h; simp [collapseWsAux] at h
  | cons a rest ih =>
    intro b h
    unfold collapseWsAux at h
    split at h
    next hw =>
      split at h
      next =>
        rcases ih true h with ⟨hmem, hws⟩ | hsp
        · exact Or.inl ⟨List.mem_cons_of_mem _ hmem, hws⟩
        · exact Or.inr hsp
      next =>
        rcases List.mem_cons.mp h with rfl | h'
        · exact Or.inr rfl
        · rcases ih true h' with ⟨hmem, hws⟩ | hsp
          · exact Or.inl ⟨List.mem_cons_of_mem _ hmem, hws⟩
          · exact Or.inr hsp
    next hw =>
      rcases List.mem_cons.mp h with rfl | h'
      · exact Or.inl ⟨List.mem_cons_self _ _, by simpa using hw⟩
      · rcases ih false h' with ⟨hmem, hws⟩ | hsp
        · exact Or.inl ⟨List.mem_cons_of_mem _ hmem, hws⟩
        · exact Or.inr hsp

theorem collapseWsAux_true_head (l : List Char) :
    ∀ c, (collapseWsAux true l).head? = some c → isWsChar c = false := by
  induction l with
  | nil => intro c h; simp [collapseWsAux] at h
  | cons a rest ih =>
    intro c h
    unfold collapseWsAux at h
    split at h
    next hw => exact ih c (by simpa using h)
    next hw =>
      simp only [List.head?_cons, Option.some.injEq] at h
      subst h
      simpa using hw

theorem collapseWsAux_chain (l : List Char) :
    ∀ b, List.Chain' (fun x y => isWsChar x = false ∨ isWsChar y = false)
      (collapseWsAux b l) := by
  induction l with
  | nil => intro b; simp [collapseWsAux]
  | cons a rest ih =>
    intro b
    unfold collapseWsAux
    split
    next hw =>
      split
      next => exact ih true
      next =>
        rw [List.chain'_cons']
        exact ⟨fun y hy => Or.inr (collapseWsAux_true_head rest y hy), ih true⟩
    next hw =>
      rw [List.chain'_cons']
      exact ⟨fun y _ => Or.inl (by simpa using hw), ih false⟩

theorem collapseWsAux_skip (l : List Char)
    (h : ∀ c, l.head? = some c → isWsChar c = false) :
    collapseWsAux true l = collapseWsAux false l := by
  cases l with
  | nil => rfl
  | cons a rest =>
    have ha := h a rfl
    simp [collapseWsAux, ha]

theorem collapseWs_fix : ∀ (l : List Char),
    List.Chain' (fun x y => isWsChar x = false ∨ isWsChar y = false) l →
    (∀ c ∈ l, isWsChar c = true → c = ' ') →
    collapseWs l = l
  | [], _, _ => rfl
  | a :: rest, hchain, hsp => by
    rw [List.chain'_cons'] at hchain
    obtain ⟨hhead, htail⟩ := hchain
    have hrest : collapseWs rest = rest :=
      collapseWs_fix rest htail (fun c hc hwc => hsp c (List.mem_cons_of_mem _ hc) hwc)
    unfold collapseWs collapseWsAux
    by_cases hw : isWsChar a
    · have ha : a = ' ' := hsp a (List.mem_cons_self a rest) hw
      rw [if_pos hw, if_neg (by simp)]
      have hresthead : ∀ c, rest.head? = some c → isWsChar c = false := by
        intro c hc
        rcases hhead c hc with h1 | h1
        · rw [hw] at h1; exact absurd h1 (by simp)
        · exact h1
      rw [collapseWsAux_skip rest hresthead]
      rw [show collapseWsAux false rest = rest from hrest, ha]
    · rw [if_neg hw]
      rw [show collapseWsAux false rest = rest from hrest]

theorem dropWhile_eq_self_of_head (p : Char → Bool) (l : List Char)
    (h : ∀ c, l.head? = some c → p c = false) : l.dropWhile p = l := by
  cases l with
  | nil => rfl
  | cons a rest => rw [List.dropWhile_cons, if_neg (by simp [h a rfl])]

theorem trimWs_eq_self (l : List Char)
    (hh : ∀ c, l.head? = some c → isWsChar c = false)
    (hl : ∀ c, l.getLast? = some c → isWsChar c = false) : trimWs l = l := by
  unfold trimWs
  rw [dropWhile_eq_self_of_head _ l hh]
  rw [dropWhile_eq_self_of_head _ l.reverse (fun c hc => hl c (by simpa using hc))]
  exact List.reverse_reverse l

theorem trimWs_getLast (l : List Char) :
    ∀ c, (trimWs l).getLast? = some c → isWsChar c = false := by
  intro c h
  unfold trimWs at h
  rw [List.getLast?_reverse] at h
  have hmatch := List.head?_dropWhile_not isWsChar (l.dropWhile isWsChar).reverse
  rw [h] at hmatch
  exact hmatch

theorem trimWs_head (l : List Char) :
    ∀ c, (trimWs l).head? = some c → isWsChar c = false := by
  intro c h
  unfold trimWs at h
  rw [List.head?_reverse] at h
  obtain ⟨t, ht⟩ := List.dropWhile_suffix (l := (l.dropWhile isWsChar).reverse) isWsChar
  have h3 : ((l.dropWhile isWsChar).reverse).getLast? = some c := by
    rw [← ht, List.getLast?_append, h]; rfl
  rw [List.getLast?_reverse] at h3
  have hmatch := List.head?_dropWhile_not isWsChar l
  rw [h3] at hmatch
  exact hmatch

theorem trimWs_chain {R : Char → Char → Prop} (hsymm : ∀ a b, R a b → R b a)
    (l : List Char) (h : List.Chain' R l) : List.Chain' R (trimWs l) := by
  unfold trimWs
  have h1 : List.Chain' R (l.dropWhile isWsChar) := h.suffix (List.dropWhile_suffix _)
  have h2 : List.Chain' R (l.dropWhile isWsChar).reverse := by
    rw [List.chain'_reverse]
    exact h1.imp (fun a b hab => hsymm a b hab)
  have h3 := h2.suffix (List.dropWhile_suffix (l := (l.dropWhile isWsChar).reverse) isWsChar)
  rw [List.chain'_reverse]
  exact h3.imp (fun a b hab => hsymm a b hab)

theorem trimWs_subset (l : List Char) : ∀ c ∈ trimWs l, c ∈ l := by
  intro c hc
  unfold trimWs at hc
  rw [List.mem_reverse] at hc
  have hc2 := (List.dropWhile_sublist (l := (l.dropWhile isWsChar).reverse) isWsChar).subset hc
  rw [List.mem_reverse] at hc2
  exact (List.dropWhile_sublist isWsChar).subset hc2

theorem sanitizeChars_eq_self (y : List Char)
    (hok : ∀ c ∈ y, isInvalidFileChar c = false)
    (hchain : List.Chain' (fun x c => isWsChar x = false ∨ isWsChar c = false) y)
    (hsp : ∀ c ∈ y, isWsChar c = true → c = ' ')
    (hh : ∀ c, y.head? = some c → isWsChar c = false)
    (hl : ∀ c, y.getLast? = some c → isWsChar c = false) :
    sanitizeChars y = y := by
  unfold sanitizeChars
  rw [List.filter_eq_self.mpr (fun c hc => by simpa using hok c hc)]
  rw [collapseWs_fix y hchain hsp]
  exact trimWs_eq_self y hh hl

theorem sanitizeChars_idem (l : List Char) :
    sanitizeChars (sanitizeChars l) = sanitizeChars l := by
  have hmem : ∀ c ∈ sanitizeChars l,
      (c ∈ l.filter (fun c => !isInvalidFileChar c) ∧ isWsChar c = false) ∨ c = ' ' := by
    intro c hc
    exact collapseWsAux_mem c _ false (trimWs_subset _ c hc)
  have hok : ∀ c ∈ sanitizeChars l, isInvalidFileChar c = false := by
    intro c hc
    rcases hmem c hc with ⟨hmem', _⟩ | rfl
    · simpa using (List.mem_filter.mp hmem').2
    · rfl
  have hchain : List.Chain' (fun x y => isWsChar x = false ∨ isWsChar y = false)
      (sanitizeChars l) :=
    trimWs_chain (fun a b hab => hab.symm) _
      (collapseWsAux_chain (l.filter (fun c => !isInvalidFileChar c)) false)
  have hsp : ∀ c ∈ sanitizeChars l, isWsChar c = true → c = ' ' := by
    intro c hc hwc
    rcases hmem c hc with ⟨_, hws⟩ | rfl
    · rw [hws] at hwc; exact absurd hwc (by simp)
    · rfl
  exact sanitizeChars_eq_self (sanitizeChars l) hok hchain hsp
    (trimWs_head (collapseWs (l.filter (fun c => !isInvalidFileChar c))))
    (trimWs_getLast (collapseWs (l.filter (fun c => !isInvalidFileChar c))))

-- ════════════════════════════════════════════════════════════════════
-- Claim C10 — idempotence of the file-name sanitizer
-- ════════════════════════════════════════════════════════════════════

/-- C10: the sanitizer used for `CleanShowName` and Plex file names
(remove `< > : " / \ | ? *`, collapse whitespace runs to one space, trim)
is idempotent: `sanitize (sanitize s) = sanitize s` for every string. -/
theorem C10_sanitizeFileName_idempotent (s : String) :
    sanitizeFileName (sanitizeFileName s) = sanitizeFileName s := by
  unfold sanitizeFileName
  rw [List.toList_asString, sanitizeChars_idem]

-- ── Filesystem-map lemmas ────────────────────────────────────────────

theorem fsGet?_fsSet_self (fs : FS) (p : Path) (v : ℕ) :
    fsGet? (fsSet fs p v) p = some v := by
  unfold fsGet? fsSet
  rw [List.find?_cons_of_pos _ (by simp)]
  rfl

-- ════════════════════════════════════════════════════════════════════
-- Claim C6 — idempotence of `copyEpisodeToWorkDir`
-- ════════════════════════════════════════════════════════════════════

/-- C6: `copyEpisodeToWorkDir` is idempotent.  If the destination under
`_episodes/Season <ss>/` already exists the call performs no copy and
returns the state-independent `RenamedFile` record that a first call would
return; and running the copy-rename a second time against the same inputs
leaves the filesystem exactly as after the first run and returns the same
record, so `_episodes/` gains no duplicates. -/
theorem C6_copyEpisodeToWorkDir_idempotent (fs : FS) (m : EpisodeMatch)
    (anime : AnimeSearchResult) (episodesDir seriesRootDir : Path) :
    (∀ sz, fsGet? fs (plexRecord m anime episodesDir seriesRootDir).newPath = some sz →
      copyEpisodeToWorkDir fs m anime episodesDir seriesRootDir false =
        .ok (fs, plexRecord m anime episodesDir seriesRootDir)) ∧
    (∀ fs' r, copyEpisodeToWorkDir fs m anime episodesDir seriesRootDir false = .ok (fs', r) →
      r = plexRecord m anime episodesDir seriesRootDir ∧
      copyEpisodeToWorkDir fs' m anime episodesDir seriesRootDir false = .ok (fs', r)) := by
  constructor
  · intro sz h
    simp [copyEpisodeToWorkDir, h]
  · intro fs' r h
    cases hdest : fsGet? fs (plexRecord m anime episodesDir seriesRootDir).newPath with
    | some sz =>
      simp [copyEpisodeToWorkDir, hdest] at h
      obtain ⟨rfl, rfl⟩ := h
      exact ⟨rfl, by simp [copyEpisodeToWorkDir, hdest]⟩
    | none =>
      cases hsrc : fsGet? fs m.filePath with
      | some size =>
        simp [copyEpisodeToWorkDir, hdest, hsrc] at h
        obtain ⟨rfl, rfl⟩ := h
        exact ⟨rfl, by simp [copyEpisodeToWorkDir, fsGet?_fsSet_self]⟩
      | none =>
        simp [copyEpisodeToWorkDir, hdest, hsrc] at h

/-- C6 witness: a concrete source file is copy-renamed once, and the second
run is a no-op returning the identical record. -/
theorem C6_witness :
    (copyEpisodeToWorkDir [(["root", "disc", "ep.mkv"], 1000)]
        (⟨"ep.mkv", ["root", "disc", "ep.mkv"], 1, 2, "Pilot", 9/10, "llm"⟩ : EpisodeMatch)
        (⟨1, ⟨"Show", some "Show", none⟩, some 12, "TV", "FINISHED"⟩ : AnimeSearchResult)
        ["root", "_episodes"] ["root"] false =
      .ok (fsSet [(["root", "disc", "ep.mkv"], 1000)]
            (plexRecord
              (⟨"ep.mkv", ["root", "disc", "ep.mkv"], 1, 2, "Pilot", 9/10, "llm"⟩ : EpisodeMatch)
              (⟨1, ⟨"Show", some "Show", none⟩, some 12, "TV", "FINISHED"⟩ : AnimeSearchResult)
              ["root", "_episodes"] ["root"]).newPath 1000,
          plexRecord
            (⟨"ep.mkv", ["root", "disc", "ep.mkv"], 1, 2, "Pilot", 9/10, "llm"⟩ : EpisodeMatch)
            (⟨1, ⟨"Show", some "Show", none⟩, some 12, "TV", "FINISHED"⟩ : AnimeSearchResult)
            ["root", "_episodes"] ["root"])) ∧
    (copyEpisodeToWorkDir
        (fsSet [(["root", "disc", "ep.mkv"], 1000)]
          (plexRecord
            (⟨"ep.mkv", ["root", "disc", "ep.mkv"], 1, 2, "Pilot", 9/10, "llm"⟩ : EpisodeMatch)
            (⟨1, ⟨"Show", some "Show", none⟩, some 12, "TV", "FINISHED"⟩ : AnimeSearchResult)
            ["root", "_episodes"] ["root"]).newPath 1000)
        (⟨"ep.mkv", ["root", "disc", "ep.mkv"], 1, 2, "Pilot", 9/10, "llm"⟩ : EpisodeMatch)
        (⟨1, ⟨"Show", some "Show", none⟩, some 12, "TV", "FINISHED"⟩ : AnimeSearchResult)
        ["root", "_episodes"] ["root"] false =
      .ok (fsSet [(["root", "disc", "ep.mkv"], 1000)]
            (plexRecord
              (⟨"ep.mkv", ["root", "disc", "ep.mkv"], 1, 2, "Pilot", 9/10, "llm"⟩ : EpisodeMatch)
              (⟨1, ⟨"Show", some "Show", none⟩, some 12, "TV", "FINISHED"⟩ : AnimeSearchResult)
              ["root", "_episodes"] ["root"]).newPath 1000,
          plexRecord
            (⟨"ep.mkv", ["root", "disc", "ep.mkv"], 1, 2, "Pilot", 9/10, "llm"⟩ : EpisodeMatch)
            (⟨1, ⟨"Show", some "Show", none⟩, some 12, "TV", "FINISHED"⟩ : AnimeSearchResult)
            ["root", "_episodes"] ["root"])) := by
  have h1 :
      copyEpisodeToWorkDir [(["root", "disc", "ep.mkv"], 1000)]
        (⟨"ep.mkv", ["root", "disc", "ep.mkv"], 1, 2, "Pilot", 9/10, "llm"⟩ : EpisodeMatch)
        (⟨1, ⟨"Show", some "Show", none⟩, some 12, "TV", "FINISHED"⟩ : AnimeSearchResult)
        ["root", "_episodes"] ["root"] false =
      .ok (fsSet [(["root", "disc", "ep.mkv"], 1000)]
            (plexRecord
              (⟨"ep.mkv", ["root", "disc", "ep.mkv"], 1, 2, "Pilot", 9/10, "llm"⟩ : EpisodeMatch)
              (⟨1, ⟨"Show", some "Show", none⟩, some 12, "TV", "FINISHED"⟩ : AnimeSearchResult)
              ["root", "_episodes"] ["root"]).newPath 1000,
          plexRecord
            (⟨"ep.mkv", ["root", "disc", "ep.mkv"], 1, 2, "Pilot", 9/10, "llm"⟩ : EpisodeMatch)
            (⟨1, ⟨"Show", some "Show", none⟩, some 12, "TV", "FINISHED"⟩ : AnimeSearchResult)
            ["root", "_episodes"] ["root"]) := by rfl
  exact ⟨h1,
    ((C6_copyEpisodeToWorkDir_idempotent [(["root", "disc", "ep.mkv"], 1000)]
        (⟨"ep.mkv", ["root", "disc", "ep.mkv"], 1, 2, "Pilot", 9/10, "llm"⟩ : EpisodeMatch)
        (⟨1, ⟨"Show", some "Show", none⟩, some 12, "TV", "FINISHED"⟩ : AnimeSearchResult)
        ["root", "_episodes"] ["root"]).2 _ _ h1).2⟩

-- ── Truncation lemmas ────────────────────────────────────────────────

theorem allowedChars_le_len (len totalChars : ℕ) (h : MAX_TOTAL_CHARS ≤ totalChars) :
    allowedChars len totalChars ≤ len := by
  unfold allowedChars
  have h0 : (0 : ℚ) < (totalChars : ℚ) := by
    have : 0 < totalChars := lt_of_lt_of_le (by norm_num [MAX_TOTAL_CHARS]) h
    exact_mod_cast this
  have hle : ((len : ℚ) / (totalChars : ℚ)) * (MAX_TOTAL_CHARS : ℚ) ≤ (len : ℚ) := by
    rw [div_mul_eq_mul_div, div_le_iff₀ h0]
    exact mul_le_mul_of_nonneg_left (by exact_mod_cast h) (by positivity)
  calc ⌊((len : ℚ) / (totalChars : ℚ)) * (MAX_TOTAL_CHARS : ℚ)⌋₊
      ≤ ⌊(len : ℚ)⌋₊ := Nat.floor_mono hle
    _ = len := Nat.floor_natCast len

theorem sliceContent_length (c : String) (k : ℕ) (h : k ≤ c.length) :
    (sliceContent c k).length = k := by
  unfold sliceContent
  rw [List.length_asString, List.length_take]
  have : c.toList.length = c.length := String.length_data c
  omega

theorem sum_allowedChars_le (lens : List ℕ) (totalChars : ℕ)
    (htot : lens.sum = totalChars) (hpos : 0 < totalChars) :
    (lens.map (fun len => allowedChars len totalChars)).sum ≤ MAX_TOTAL_CHARS := by
  have h0 : (0 : ℚ) < (totalChars : ℚ) := by exact_mod_cast hpos
  have hQ : (((lens.map (fun len => allowedChars len totalChars)).sum : ℕ) : ℚ) ≤
      (MAX_TOTAL_CHARS : ℚ) := by
    calc (((lens.map (fun len => allowedChars len totalChars)).sum : ℕ) : ℚ)
        = (lens.map (fun (len : ℕ) => ((allowedChars len totalChars : ℕ) : ℚ))).sum := by
          rw [Nat.cast_list_sum, List.map_map]; rfl
      _ ≤ (lens.map (fun (len : ℕ) =>
            ((len : ℚ) / (totalChars : ℚ)) * (MAX_TOTAL_CHARS : ℚ))).sum := by
          refine List.sum_le_sum ?_
          intro len _
          exact Nat.floor_le (by positivity)
      _ = (lens.map (fun (len : ℕ) =>
            (len : ℚ) * ((MAX_TOTAL_CHARS : ℚ) / (totalChars : ℚ)))).sum := by
          simp only [div_mul_eq_mul_div, mul_div_assoc]
      _ = ((lens.map (fun (len : ℕ) => (len : ℚ))).sum) *
            ((MAX_TOTAL_CHARS : ℚ) / (totalChars : ℚ)) :=
          List.sum_map_mul_right lens (fun (len : ℕ) => (len : ℚ)) _
      _ = (totalChars : ℚ) * ((MAX_TOTAL_CHARS : ℚ) / (totalChars : ℚ)) := by
          rw [← Nat.cast_list_sum, htot]
      _ = (MAX_TOTAL_CHARS : ℚ) := by
          field_simp
  exact_mod_cast hQ

-- ════════════════════════════════════════════════════════════════════
-- Claim C9 — proportional subtitle truncation cap
-- ════════════════════════════════════════════════════════════════════

/-- C9: in `matchEpisodes`, when the total character count of the extracted
subtitles exceeds 500 000, each file's content is cut to
`⌊(len/total)·500000⌋` characters (exactly that many), so the total text
included in the prompt is at most 500 000 characters; when the total does
not exceed the cap every file's content is passed unchanged. -/
theorem C9_matchEpisodes_truncation (subtitles : List ExtractedSubtitles) (totalChars : ℕ)
    (htot : (subtitles.map (fun sub => sub.content.length)).sum = totalChars) :
    (MAX_TOTAL_CHARS < totalChars →
      truncatedContents subtitles = subtitles.map (fun sub =>
        sliceContent sub.content (allowedChars sub.content.length totalChars)) ∧
      (∀ sub ∈ subtitles,
        (sliceContent sub.content (allowedChars sub.content.length totalChars)).length =
          allowedChars sub.content.length totalChars) ∧
      ((truncatedContents subtitles).map (fun c => c.length)).sum ≤ MAX_TOTAL_CHARS) ∧
    (totalChars ≤ MAX_TOTAL_CHARS →
      truncatedContents subtitles = subtitles.map (fun sub => sub.content)) := by
  constructor
  · intro hgt
    have heq : truncatedContents subtitles = subtitles.map (fun sub =>
        sliceContent sub.content (allowedChars sub.content.length totalChars)) := by
      unfold truncatedContents
      rw [htot]
      simp only [if_pos hgt]
    have hlen : ∀ sub ∈ subtitles,
        (sliceContent sub.content (allowedChars sub.content.length totalChars)).length =
          allowedChars sub.content.length totalChars := by
      intro sub _
      exact sliceContent_length _ _ (allowedChars_le_len _ _ (le_of_lt hgt))
    refine ⟨heq, hlen, ?_⟩
    rw [heq]
    have hsum : ((subtitles.map (fun sub =>
        sliceContent sub.content (allowedChars sub.content.length totalChars))).map
          (fun c => c.length)).sum =
        ((subtitles.map (fun sub => sub.content.length)).map
          (fun len => allowedChars len totalChars)).sum := by
      rw [List.map_map, List.map_map]
      congr 1
      refine List.map_congr_left ?_
      intro sub hsub
      exact hlen sub hsub
    rw [hsum]
    exact sum_allowedChars_le _ _ htot
      (lt_of_lt_of_le (by norm_num [MAX_TOTAL_CHARS]) (le_of_lt hgt))
  · intro hle
    unfold truncatedContents
    rw [htot]
    simp only [if_neg (not_lt.mpr hle)]

/-- C9 witness: two subtitle files totalling 600 000 characters are each cut
to five sixths of their length and the prompt total stays at the cap; a
small list is passed through unchanged. -/
theorem C9_witness :
    ((MAX_TOTAL_CHARS <
        (([⟨"a.mkv", "a.mkv", (String.mk (List.replicate 400000 'x')), "embedded", none⟩,
           ⟨"b.mkv", "b.mkv", (String.mk (List.replicate 200000 'y')), "embedded", none⟩] :
            List ExtractedSubtitles).map (fun sub => sub.content.length)).sum) ∧
      (((truncatedContents
          [⟨"a.mkv", "a.mkv", (String.mk (List.replicate 400000 'x')), "embedded", none⟩,
           ⟨"b.mkv", "b.mkv", (String.mk (List.replicate 200000 'y')), "embedded", none⟩]).map
            (fun c => c.length)).sum ≤ MAX_TOTAL_CHARS)) ∧
    truncatedContents [(⟨"c.mkv", "c.mkv", "hello", "external", some "en"⟩ : ExtractedSubtitles)] =
      ["hello"] := by
  have hsum : (([⟨"a.mkv", "a.mkv", (String.mk (List.replicate 400000 'x')), "embedded", none⟩,
      ⟨"b.mkv", "b.mkv", (String.mk (List.replicate 200000 'y')), "embedded", none⟩] :
        List ExtractedSubtitles).map (fun sub => sub.content.length)).sum = 600000 := by
    simp only [List.map_cons, List.map_nil, List.sum_cons, List.sum_nil,
      String.length_mk, List.length_replicate]
    norm_num
  have hmain := C9_matchEpisodes_truncation
    [⟨"a.mkv", "a.mkv", (String.mk (List.replicate 400000 'x')), "embedded", none⟩,
     ⟨"b.mkv", "b.mkv", (String.mk (List.replicate 200000 'y')), "embedded", none⟩]
    600000 hsum
  have hsmall := C9_matchEpisodes_truncation
    [(⟨"c.mkv", "c.mkv", "hello", "external", some "en"⟩ : ExtractedSubtitles)]
    5 (by decide)
  refine ⟨⟨?_, (hmain.1 (by norm_num [MAX_TOTAL_CHARS])).2.2⟩, ?_⟩
  · rw [hsum]; norm_num [MAX_TOTAL_CHARS]
  · rw [hsmall.2 (by norm_num [MAX_TOTAL_CHARS])]
    rfl

-- ── Detection branch lemma ───────────────────────────────────────────

theorem detectEpisodeFiles_eq_clustered (videoFiles : List SrcFile)
    (h : 3 ≤ videoFiles.length) :
    detectEpisodeFiles videoFiles = detectClustered videoFiles := by
  have h1 : videoFiles.isEmpty = false := by
    cases videoFiles with
    | nil => simp at h
    | cons a l => rfl
  have h2 : ¬ (videoFiles.length ≤ 2) := by omega
  unfold detectEpisodeFiles
  rw [if_neg (by simp [h1]), if_neg h2]

-- ══════════════════════════════════════════════════════════════════
-- Claim C5 — largest-bin selection and cluster median
-- ══════════════════════════════════════════════════════════════════

-- The JS Map keeps keys in insertion order.  Because the files are
-- iterated in size-ascending order and binIndex is monotone in the size,
-- bin keys get created in strictly increasing order; the selection loop
-- replaces its candidate only on a strictly larger count, so it returns
-- the first — i.e. smallest-index — bin of maximal count.

lemma insertIntoBins_map_fst (bins : List (ℤ × List SrcFile)) (k : ℤ) (f : SrcFile) :
    (insertIntoBins bins k f).map Prod.fst =
      if k ∈ bins.map Prod.fst then bins.map Prod.fst else bins.map Prod.fst ++ [k] := by
  induction bins with
  | nil => simp [insertIntoBins]
  | cons hd rest ih =>
    obtain ⟨k', fs⟩ := hd
    by_cases hk : k' = k
    · subst hk
      simp [insertIntoBins]
    · simp only [insertIntoBins, if_neg hk, List.map_cons, ih, List.mem_cons]
      by_cases hmem : k ∈ rest.map Prod.fst
      · simp [hmem, hk]
      · have hdisj : ¬ (k = k' ∨ k ∈ rest.map Prod.fst) := by
          rintro (hc | hc)
          · exact hk hc.symm
          · exact hmem hc
        rw [if_neg hmem, if_neg hdisj, List.cons_append]

lemma insertIntoBins_mem (bins : List (ℤ × List SrcFile)) (k : ℤ) (f : SrcFile)
    (hnd : (bins.map Prod.fst).Nodup) (kv : ℤ × List SrcFile)
    (h : kv ∈ insertIntoBins bins k f) :
    (kv ∈ bins ∧ kv.1 ≠ k) ∨
    (∃ fs, (k, fs) ∈ bins ∧ kv = (k, fs ++ [f])) ∨
    (kv = (k, [f]) ∧ k ∉ bins.map Prod.fst) := by
  induction bins with
  | nil =>
    simp only [insertIntoBins, List.mem_singleton] at h
    right; right; simp [h]
  | cons hd rest ih =>
    obtain ⟨k', fs⟩ := hd
    simp only [List.map_cons, List.nodup_cons] at hnd
    by_cases hk : k' = k
    · subst hk
      have hins : ∀ (kk : ℤ) (gs : List SrcFile),
          insertIntoBins ((kk, gs) :: rest) kk f = (kk, gs ++ [f]) :: rest := by
        intro kk gs
        simp [insertIntoBins]
      rw [hins, List.mem_cons] at h
      cases h with
      | inl h1 => exact Or.inr (Or.inl ⟨fs, List.mem_cons_self _ _, h1⟩)
      | inr h1 =>
        left
        refine ⟨List.mem_cons_of_mem _ h1, ?_⟩
        intro hkv
        exact hnd.1 (hkv ▸ List.mem_map_of_mem Prod.fst h1)
    · simp only [insertIntoBins, if_neg hk, List.mem_cons] at h
      rcases h with h | h
      · left
        refine ⟨by simp [h], ?_⟩
        simp only [h]
        exact hk
      · rcases ih hnd.2 h with ⟨h1, h2⟩ | ⟨gs, hg1, hg2⟩ | ⟨h1, h2⟩
        · exact Or.inl ⟨List.mem_cons_of_mem _ h1, h2⟩
        · exact Or.inr (Or.inl ⟨gs, List.mem_cons_of_mem _ hg1, hg2⟩)
        · right; right
          refine ⟨h1, ?_⟩
          simp only [List.map_cons, List.mem_cons]
          rintro (hc | hc)
          · exact hk hc.symm
          · exact h2 hc

lemma buildBins_append (m w : ℚ) (l : List SrcFile) (x : SrcFile) :
    buildBins m w (l ++ [x]) =
      insertIntoBins (buildBins m w l) (binIdx m w x.size) x := by
  simp [buildBins, List.foldl_append]

lemma buildBins_spec (m w : ℚ) (l : List SrcFile)
    (hs : (l.map (fun f => binIdx m w f.size)).Sorted (· ≤ ·)) :
    (∀ kv ∈ buildBins m w l,
        kv.2 = l.filter (fun f => decide (binIdx m w f.size = kv.1))) ∧
    (∀ k : ℤ, k ∈ (buildBins m w l).map Prod.fst ↔
        k ∈ l.map (fun f => binIdx m w f.size)) ∧
    ((buildBins m w l).map Prod.fst).Sorted (· < ·) := by
  induction l using List.reverseRecOn with
  | nil => simp [buildBins]
  | append_singleton l x ih =>
    have hsub : (l.map (fun f => binIdx m w f.size)).Sublist
        ((l ++ [x]).map (fun f => binIdx m w f.size)) :=
      (List.sublist_append_left l [x]).map _
    have hs' : (l.map (fun f => binIdx m w f.size)).Sorted (· ≤ ·) :=
      List.Pairwise.sublist hsub hs
    have hmapapp : (l ++ [x]).map (fun f => binIdx m w f.size) =
        l.map (fun f => binIdx m w f.size) ++ [binIdx m w x.size] := by
      simp
    have hlast : ∀ a ∈ l.map (fun f => binIdx m w f.size), a ≤ binIdx m w x.size := by
      rw [hmapapp] at hs
      have := (List.pairwise_append.mp hs).2.2
      intro a ha
      exact this a ha _ (List.mem_singleton_self _)
    obtain ⟨ih1, ih2, ih3⟩ := ih hs'
    have hnd : ((buildBins m w l).map Prod.fst).Nodup :=
      List.Pairwise.imp (fun h => ne_of_lt h) ih3
    refine ⟨?_, ?_, ?_⟩
    · intro kv hkv
      rw [buildBins_append] at hkv
      rcases insertIntoBins_mem _ _ _ hnd kv hkv with
        ⟨hmem, hne⟩ | ⟨fs, hfs, hkveq⟩ | ⟨hkveq, hnotin⟩
      · rw [ih1 kv hmem, List.filter_append]
        simp [Ne.symm hne]
      · have hfseq := ih1 (binIdx m w x.size, fs) hfs
        simp only at hfseq
        rw [hkveq]
        simp only [List.filter_append]
        rw [← hfseq]
        simp
      · have hnotl : binIdx m w x.size ∉ l.map (fun f => binIdx m w f.size) :=
          fun hc => hnotin ((ih2 _).mpr hc)
        have hfilnil : l.filter (fun f => decide (binIdx m w f.size = binIdx m w x.size)) = [] := by
          rw [List.filter_eq_nil_iff]
          intro f hf
          simp only [decide_eq_true_eq]
          intro hc
          exact hnotl (hc ▸ List.mem_map_of_mem _ hf)
        rw [hkveq]
        simp only [List.filter_append]
        rw [hfilnil]
        simp
    · intro k
      rw [buildBins_append, insertIntoBins_map_fst, hmapapp]
      by_cases hin : binIdx m w x.size ∈ (buildBins m w l).map Prod.fst
      · rw [if_pos hin, ih2, List.mem_append, List.mem_singleton]
        constructor
        · exact Or.inl
        · rintro (hc | hc)
          · exact hc
          · exact hc ▸ (ih2 _).mp hin
      · rw [if_neg hin, List.mem_append, List.mem_append, List.mem_singleton, ih2]
    · rw [buildBins_append, insertIntoBins_map_fst]
      by_cases hin : binIdx m w x.size ∈ (buildBins m w l).map Prod.fst
      · rw [if_pos hin]; exact ih3
      · rw [if_neg hin]
        refine List.pairwise_append.mpr ⟨ih3, List.pairwise_singleton _ _, ?_⟩
        intro a ha b hb
        rw [List.mem_singleton] at hb
        subst hb
        have hle : a ≤ binIdx m w x.size := hlast a ((ih2 a).mp ha)
        have hne : a ≠ binIdx m w x.size := fun hc => hin (hc ▸ ha)
        exact lt_of_le_of_ne hle hne

lemma pickLargest_go (bins : List (ℤ × List SrcFile)) :
    ∀ acc : List SrcFile,
    (bins.foldl (fun best kv => if best.length < kv.2.length then kv.2 else best) acc = acc ∧
      ∀ kv ∈ bins, kv.2.length ≤ acc.length) ∨
    (∃ pre k b post, bins = pre ++ (k, b) :: post ∧
      bins.foldl (fun best kv => if best.length < kv.2.length then kv.2 else best) acc = b ∧
      acc.length < b.length ∧
      (∀ u ∈ pre, u.2.length < b.length) ∧
      (∀ u ∈ post, u.2.length ≤ b.length)) := by
  induction bins with
  | nil => intro acc; left; simp
  | cons hd rest ih =>
    intro acc
    obtain ⟨k', v⟩ := hd
    by_cases hlt : acc.length < v.length
    · rw [List.foldl_cons]
      simp only [if_pos hlt]
      rcases ih v with ⟨hres, hbnd⟩ | ⟨pre, k, b, post, hsplit, hres, hacc, hpre, hpost⟩
      · right
        refine ⟨[], k', v, rest, by simp, hres, hlt, by simp, hbnd⟩
      · right
        refine ⟨(k', v) :: pre, k, b, post, by rw [hsplit]; rfl, hres,
          lt_trans hlt hacc, ?_, hpost⟩
        intro u hu
        rcases List.mem_cons.mp hu with hu | hu
        · rw [hu]; exact hacc
        · exact hpre u hu
    · rw [List.foldl_cons]
      simp only [if_neg hlt]
      rcases ih acc with ⟨hres, hbnd⟩ | ⟨pre, k, b, post, hsplit, hres, hacc, hpre, hpost⟩
      · left
        refine ⟨hres, ?_⟩
        intro kv hkv
        rcases List.mem_cons.mp hkv with hkv | hkv
        · rw [hkv]; exact Nat.le_of_not_lt hlt
        · exact hbnd kv hkv
      · right
        refine ⟨(k', v) :: pre, k, b, post, by rw [hsplit]; rfl, hres, hacc, ?_, hpost⟩
        intro u hu
        rcases List.mem_cons.mp hu with hu | hu
        · rw [hu]
          exact lt_of_le_of_lt (Nat.le_of_not_lt hlt) hacc
        · exact hpre u hu

lemma pickLargestBin_spec (bins : List (ℤ × List SrcFile))
    (hne : bins ≠ []) (hnonempty : ∀ kv ∈ bins, kv.2 ≠ []) :
    ∃ pre k post, bins = pre ++ (k, pickLargestBin bins) :: post ∧
      (∀ u ∈ pre, u.2.length < (pickLargestBin bins).length) ∧
      (∀ u ∈ bins, u.2.length ≤ (pickLargestBin bins).length) := by
  rcases pickLargest_go bins [] with ⟨hres, hbnd⟩ | ⟨pre, k, b, post, hsplit, hres, _, hpre, hpost⟩
  · exfalso
    obtain ⟨kv, hkv⟩ := List.exists_mem_of_ne_nil bins hne
    have := hbnd kv hkv
    simp only [List.length_nil, Nat.le_zero, List.length_eq_zero] at this
    exact hnonempty kv hkv this
  · have hpick : pickLargestBin bins = b := hres
    refine ⟨pre, k, post, by rw [hpick]; exact hsplit, ?_, ?_⟩
    · rw [hpick]; exact hpre
    · rw [hpick]
      intro u hu
      rw [hsplit] at hu
      rcases List.mem_append.mp hu with hu | hu
      · exact le_of_lt (hpre u hu)
      · rcases List.mem_cons.mp hu with hu | hu
        · rw [hu]
        · exact hpost u hu

lemma histBinWidth_pos (v : List SrcFile) : 0 < histBinWidth v :=
  lt_of_lt_of_le (by norm_num) (le_max_left _ _)

lemma binIdx_mono (m w : ℚ) (hw : 0 < w) (a b : ℚ) (h : a ≤ b) :
    binIdx m w a ≤ binIdx m w b := by
  unfold binIdx
  apply Int.floor_mono
  gcongr


lemma sortedBySize_sorted (v : List SrcFile) :
    (sortedBySize v).Pairwise (fun a b => a.size ≤ b.size) := by
  have h := @List.sorted_mergeSort SrcFile (fun a b => decide (a.size ≤ b.size))
    (fun a b c => by simp only [decide_eq_true_eq]; exact le_trans)
    (fun a b => by simp [le_total]) v
  exact List.Pairwise.imp (fun hd => of_decide_eq_true hd) h

lemma sortedBySize_length (v : List SrcFile) : (sortedBySize v).length = v.length :=
  (List.mergeSort_perm v _).length_eq

/-- **C5.**  For three or more video files, `detectEpisodeFiles` sorts by
size ascending, assigns each file to bin `⌊(size − min)/w⌋` with
`w = max(50 MiB, (max − min)/20)`, selects the bin with the most files
breaking ties by the smallest bin index, and sets `clusterMedianSize` to
the median of the selected bin's sizes (averaging the two middle values
for even counts — exactly the computation `medianOfSorted` transcribes
from the source). -/
theorem C5_histogram_selection (videoFiles : List SrcFile) (h3 : 3 ≤ videoFiles.length) :
    ∃ k : ℤ,
      0 < binCount videoFiles k ∧
      (∀ j : ℤ, binCount videoFiles j ≤ binCount videoFiles k) ∧
      (∀ j : ℤ, binCount videoFiles j = binCount videoFiles k → k ≤ j) ∧
      (detectEpisodeFiles videoFiles).clusterMedianSize =
        medianOfSorted (((binOf videoFiles k).map (fun f => f.size)).mergeSort
          (fun a b => decide (a ≤ b))) := by
  have hw : 0 < histBinWidth videoFiles := histBinWidth_pos videoFiles
  have hs : ((sortedBySize videoFiles).map
      (fun f => binIdx (histMinSize videoFiles) (histBinWidth videoFiles) f.size)).Sorted
        (· ≤ ·) :=
    List.pairwise_map.mpr
      ((sortedBySize_sorted videoFiles).imp
        (fun hab => binIdx_mono _ _ hw _ _ hab))
  obtain ⟨hb1, hb2, hb3⟩ :=
    buildBins_spec (histMinSize videoFiles) (histBinWidth videoFiles)
      (sortedBySize videoFiles) hs
  have hlen : 0 < (sortedBySize videoFiles).length := by
    rw [sortedBySize_length]; omega
  have hsortne : sortedBySize videoFiles ≠ [] := List.ne_nil_of_length_pos hlen
  have hbne : ∀ kv ∈ buildBins (histMinSize videoFiles) (histBinWidth videoFiles)
      (sortedBySize videoFiles), kv.2 ≠ [] := by
    intro kv hkv
    have hk1 : kv.1 ∈ (buildBins (histMinSize videoFiles) (histBinWidth videoFiles)
        (sortedBySize videoFiles)).map Prod.fst := List.mem_map_of_mem _ hkv
    obtain ⟨f, hf, hgf⟩ := List.mem_map.mp ((hb2 _).mp hk1)
    rw [hb1 kv hkv]
    intro hc
    rw [List.filter_eq_nil_iff] at hc
    exact hc f hf (by simp [hgf])
  have hbinsne : buildBins (histMinSize videoFiles) (histBinWidth videoFiles)
      (sortedBySize videoFiles) ≠ [] := by
    obtain ⟨f, hf⟩ := List.exists_mem_of_ne_nil _ hsortne
    have hmem : binIdx (histMinSize videoFiles) (histBinWidth videoFiles) f.size ∈
        (sortedBySize videoFiles).map
          (fun f => binIdx (histMinSize videoFiles) (histBinWidth videoFiles) f.size) :=
      List.mem_map_of_mem _ hf
    have hkeys := (hb2 _).mpr hmem
    intro hc
    rw [hc] at hkeys
    simp at hkeys
  obtain ⟨pre, k, post, hsplit, hpre, hmax⟩ := pickLargestBin_spec _ hbinsne hbne
  have hkmem : (k, pickLargestBin (buildBins (histMinSize videoFiles)
      (histBinWidth videoFiles) (sortedBySize videoFiles))) ∈
        buildBins (histMinSize videoFiles) (histBinWidth videoFiles)
          (sortedBySize videoFiles) := by
    nth_rewrite 1 [hsplit]
    exact List.mem_append_right _ (List.mem_cons_self _ _)
  have hpickeq : pickLargestBin (buildBins (histMinSize videoFiles)
      (histBinWidth videoFiles) (sortedBySize videoFiles)) = binOf videoFiles k := by
    have h := hb1 _ hkmem
    simpa [binOf] using h
  -- a bucket entry with key j is the bin of j
  have hbucket : ∀ kv ∈ buildBins (histMinSize videoFiles) (histBinWidth videoFiles)
      (sortedBySize videoFiles), kv.2 = binOf videoFiles kv.1 := by
    intro kv hkv
    rw [hb1 kv hkv]
    rfl
  -- any nonempty bin has an entry in the bins list
  have hentry : ∀ j : ℤ, binOf videoFiles j ≠ [] →
      ∃ kv ∈ buildBins (histMinSize videoFiles) (histBinWidth videoFiles)
        (sortedBySize videoFiles), kv.1 = j := by
    intro j hj
    obtain ⟨f, hf⟩ := List.exists_mem_of_ne_nil _ hj
    have hf' : f ∈ sortedBySize videoFiles := List.mem_of_mem_filter hf
    have hgf : binIdx (histMinSize videoFiles) (histBinWidth videoFiles) f.size = j := by
      have h := List.of_mem_filter hf
      simpa using h
    have hjk : j ∈ (buildBins (histMinSize videoFiles) (histBinWidth videoFiles)
        (sortedBySize videoFiles)).map Prod.fst :=
      (hb2 j).mpr (hgf ▸ List.mem_map_of_mem _ hf')
    obtain ⟨kv, hkv, hkvj⟩ := List.mem_map.mp hjk
    exact ⟨kv, hkv, hkvj⟩
  have hkpos : 0 < binCount videoFiles k := by
    have hne := hbne _ hkmem
    rw [hpickeq] at hne
    exact List.length_pos.mpr hne
  refine ⟨k, hkpos, ?_, ?_, ?_⟩
  · intro j
    by_cases hj : binOf videoFiles j = []
    · simp [binCount, hj]
    · obtain ⟨kv, hkv, hkvj⟩ := hentry j hj
      have h2 := hbucket kv hkv
      rw [hkvj] at h2
      have h4 := hmax kv hkv
      rw [h2, hpickeq] at h4
      exact h4
  · intro j hcnt
    have hjne : binOf videoFiles j ≠ [] := by
      intro hc
      rw [binCount, hc] at hcnt
      simp at hcnt
      omega
    obtain ⟨kv, hkv, hkvj⟩ := hentry j hjne
    have h2 := hbucket kv hkv
    rw [hkvj] at h2
    rw [hsplit] at hkv
    rcases List.mem_append.mp hkv with hin | hin
    · exfalso
      have h5 := hpre kv hin
      rw [h2, hpickeq] at h5
      have : binCount videoFiles j < binCount videoFiles k := h5
      omega
    · rcases List.mem_cons.mp hin with heq | hin
      · have : j = k := by rw [← hkvj, heq]
        exact le_of_eq this.symm
      · have hkeys : ((buildBins (histMinSize videoFiles) (histBinWidth videoFiles)
            (sortedBySize videoFiles)).map Prod.fst) =
              pre.map Prod.fst ++ k :: post.map Prod.fst := by
          rw [hsplit]; simp
        rw [hkeys] at hb3
        have h6 := (List.pairwise_append.mp hb3).2.1
        have h7 := (List.pairwise_cons.mp h6).1
        exact le_of_lt (h7 j (hkvj ▸ List.mem_map_of_mem Prod.fst hin))
  · rw [detectEpisodeFiles_eq_clustered videoFiles h3]
    have hmedian : (detectClustered videoFiles).clusterMedianSize =
        medianOfSorted (((pickLargestBin (buildBins (histMinSize videoFiles)
          (histBinWidth videoFiles) (sortedBySize videoFiles))).map
            (fun f => f.size)).mergeSort (fun a b => decide (a ≤ b))) := rfl
    rw [hmedian, hpickeq]

/-- C5, witness: the gate theorem applied to three concrete files. -/
theorem C5_witness :
    3 ≤ c5Files.length ∧
    (∃ k : ℤ,
      0 < binCount c5Files k ∧
      (∀ j : ℤ, binCount c5Files j ≤ binCount c5Files k) ∧
      (∀ j : ℤ, binCount c5Files j = binCount c5Files k → k ≤ j) ∧
      (detectEpisodeFiles c5Files).clusterMedianSize =
        medianOfSorted (((binOf c5Files k).map (fun f => f.size)).mergeSort
          (fun a b => decide (a ≤ b)))) :=
  ⟨by decide, C5_histogram_selection c5Files (by decide)⟩

-- ════════════════════════════════════════════════════════════════════
-- Claim C2 — the ±20 % episode window
-- ════════════════════════════════════════════════════════════════════

/-- C2, counterexample.  The claim quantifies over any non-empty video-file
set, but with exactly two files `detectEpisodeFiles` declares both files
episodes and takes `clusterMedianSize` from the first file, so a 1000-byte
file is an episode far outside `[0.8·100, 1.2·100]`. -/
theorem C2_counterexample :
    (detectEpisodeFiles [⟨["a.mkv"], "a.mkv", "a.mkv", 100⟩,
        ⟨["b.mkv"], "b.mkv", "b.mkv", 1000⟩]).clusterMedianSize = 100 ∧
    (⟨["b.mkv"], "b.mkv", "b.mkv", 1000⟩ : SrcFile) ∈
      (detectEpisodeFiles [⟨["a.mkv"], "a.mkv", "a.mkv", 100⟩,
        ⟨["b.mkv"], "b.mkv", "b.mkv", 1000⟩]).episodes ∧
    ¬ (∀ f ∈ (detectEpisodeFiles [⟨["a.mkv"], "a.mkv", "a.mkv", 100⟩,
          ⟨["b.mkv"], "b.mkv", "b.mkv", 1000⟩]).episodes,
        0.8 * (detectEpisodeFiles [⟨["a.mkv"], "a.mkv", "a.mkv", 100⟩,
          ⟨["b.mkv"], "b.mkv", "b.mkv", 1000⟩]).clusterMedianSize ≤ f.size ∧
        f.size ≤ 1.2 * (detectEpisodeFiles [⟨["a.mkv"], "a.mkv", "a.mkv", 100⟩,
          ⟨["b.mkv"], "b.mkv", "b.mkv", 1000⟩]).clusterMedianSize) := by
  have hmed : (detectEpisodeFiles [⟨["a.mkv"], "a.mkv", "a.mkv", 100⟩,
      ⟨["b.mkv"], "b.mkv", "b.mkv", 1000⟩]).clusterMedianSize = 100 := rfl
  refine ⟨hmed, by decide, ?_⟩
  intro hall
  have hb := hall ⟨["b.mkv"], "b.mkv", "b.mkv", 1000⟩ (by decide)
  rw [hmed] at hb
  rcases hb with ⟨-, hub⟩
  norm_num at hub

/-- C2, amended: *for three or more video files* (the histogram path) every
episode lies inside the inclusive window
`[0.8·clusterMedianSize, 1.2·clusterMedianSize]` and no non-episode does;
with one or two files the code instead declares every file an episode and
sets `clusterMedianSize` to the first file's size, so the window can be
violated (see the counterexample). -/
theorem C2_episode_window (videoFiles : List SrcFile) (h : 3 ≤ videoFiles.length) :
    (∀ f ∈ (detectEpisodeFiles videoFiles).episodes,
      0.8 * (detectEpisodeFiles videoFiles).clusterMedianSize ≤ f.size ∧
      f.size ≤ 1.2 * (detectEpisodeFiles videoFiles).clusterMedianSize) ∧
    (∀ f ∈ (detectEpisodeFiles videoFiles).nonEpisodes,
      ¬ (0.8 * (detectEpisodeFiles videoFiles).clusterMedianSize ≤ f.size ∧
        f.size ≤ 1.2 * (detectEpisodeFiles videoFiles).clusterMedianSize)) := by
  rw [detectEpisodeFiles_eq_clustered videoFiles h]
  simp only [detectClustered]
  constructor
  · intro f hf
    rw [List.mem_filter] at hf
    have hwin := hf.2
    simp only [Bool.and_eq_true, decide_eq_true_eq] at hwin
    exact ⟨by rw [mul_comm]; exact hwin.1, by rw [mul_comm]; exact hwin.2⟩
  · intro f hf
    rw [List.mem_filter] at hf
    have hwin := hf.2
    simp only [Bool.not_eq_true', Bool.and_eq_false_iff, decide_eq_false_iff_not] at hwin
    intro hcontra
    rcases hwin with h1 | h1
    · exact h1 (by rw [mul_comm]; exact hcontra.1)
    · exact h1 (by rw [mul_comm]; exact hcontra.2)

/-- C2 witness: the amended window property at a concrete three-file
folder. -/
theorem C2_witness :
    (∀ f ∈ (detectEpisodeFiles [⟨["a.mkv"], "a.mkv", "a.mkv", 100⟩,
        ⟨["b.mkv"], "b.mkv", "b.mkv", 110⟩, ⟨["c.mkv"], "c.mkv", "c.mkv", 900⟩]).episodes,
      0.8 * (detectEpisodeFiles [⟨["a.mkv"], "a.mkv", "a.mkv", 100⟩,
        ⟨["b.mkv"], "b.mkv", "b.mkv", 110⟩,
        ⟨["c.mkv"], "c.mkv", "c.mkv", 900⟩]).clusterMedianSize ≤ f.size ∧
      f.size ≤ 1.2 * (detectEpisodeFiles [⟨["a.mkv"], "a.mkv", "a.mkv", 100⟩,
        ⟨["b.mkv"], "b.mkv", "b.mkv", 110⟩,
        ⟨["c.mkv"], "c.mkv", "c.mkv", 900⟩]).clusterMedianSize) ∧
    (∀ f ∈ (detectEpisodeFiles [⟨["a.mkv"], "a.mkv", "a.mkv", 100⟩,
        ⟨["b.mkv"], "b.mkv", "b.mkv", 110⟩, ⟨["c.mkv"], "c.mkv", "c.mkv", 900⟩]).nonEpisodes,
      ¬ (0.8 * (detectEpisodeFiles [⟨["a.mkv"], "a.mkv", "a.mkv", 100⟩,
          ⟨["b.mkv"], "b.mkv", "b.mkv", 110⟩,
          ⟨["c.mkv"], "c.mkv", "c.mkv", 900⟩]).clusterMedianSize ≤ f.size ∧
        f.size ≤ 1.2 * (detectEpisodeFiles [⟨["a.mkv"], "a.mkv", "a.mkv", 100⟩,
          ⟨["b.mkv"], "b.mkv", "b.mkv", 110⟩,
          ⟨["c.mkv"], "c.mkv", "c.mkv", 900⟩]).clusterMedianSize)) :=
  C2_episode_window [⟨["a.mkv"], "a.mkv", "a.mkv", 100⟩,
    ⟨["b.mkv"], "b.mkv", "b.mkv", 110⟩, ⟨["c.mkv"], "c.mkv", "c.mkv", 900⟩] (by decide)

-- ── Walk lemmas ──────────────────────────────────────────────────────

theorem drop_append_cons (p : Path) (name : String) (rest : Path) :
    ((p ++ [name]) ++ rest).drop p.length = name :: rest := by
  rw [List.append_assoc]
  exact List.drop_left p ([name] ++ rest)

mutual

theorem allFilesEntry_path (dirPath : Path) (e : FSEntry) :
    ∀ f ∈ allFilesEntry dirPath e, ∃ rest, rest ≠ [] ∧ f.path = dirPath ++ rest := by
  cases e with
  | file name size =>
    intro f hf
    simp only [allFilesEntry, List.mem_singleton] at hf
    subst hf
    exact ⟨[name], by simp, rfl⟩
  | dir name entries =>
    intro f hf
    simp only [allFilesEntry] at hf
    obtain ⟨rest, hne, hpath⟩ := allFilesEntries_path (dirPath ++ [name]) entries f hf
    exact ⟨name :: rest, by simp, by rw [hpath, List.append_assoc]; rfl⟩

theorem allFilesEntries_path (dirPath : Path) (es : List FSEntry) :
    ∀ f ∈ allFilesEntries dirPath es, ∃ rest, rest ≠ [] ∧ f.path = dirPath ++ rest := by
  cases es with
  | nil => intro f hf; simp [allFilesEntries] at hf
  | cons e es' =>
    intro f hf
    simp only [allFilesEntries, List.mem_append] at hf
    rcases hf with hf | hf
    · exact allFilesEntry_path dirPath e f hf
    · exact allFilesEntries_path dirPath es' f hf

end

mutual

theorem walkEntry_eq_filter (dirPath : Path) (e : FSEntry) :
    walkEntry dirPath e = (allFilesEntry dirPath e).filter (walkKeeps dirPath) := by
  cases e with
  | file name size =>
    simp only [walkEntry, allFilesEntry, List.filter]
    have hdrop : ((dirPath ++ [name]).drop dirPath.length) = [name] := List.drop_left _ _
    by_cases hu : startsWithUnderscore name
    · rw [if_pos hu]
      have : walkKeeps dirPath ⟨dirPath ++ [name], name, name, size⟩ = false := by
        simp [walkKeeps, hdrop, hu]
      rw [this]
    · rw [if_neg hu]
      by_cases hv : isVideoFileName name
      · rw [if_pos hv]
        have : walkKeeps dirPath ⟨dirPath ++ [name], name, name, size⟩ = true := by
          simp [walkKeeps, hdrop, hu, hv]
        rw [this]
      · rw [if_neg hv]
        have : walkKeeps dirPath ⟨dirPath ++ [name], name, name, size⟩ = false := by
          simp [walkKeeps, hdrop, hv]
        rw [this]
  | dir name entries =>
    simp only [walkEntry, allFilesEntry]
    by_cases hu : startsWithUnderscore name
    · rw [if_pos hu]
      symm
      rw [List.filter_eq_nil_iff]
      intro f hf hkeep
      obtain ⟨rest, hne, hpath⟩ := allFilesEntries_path (dirPath ++ [name]) entries f hf
      unfold walkKeeps at hkeep
      rw [hpath, drop_append_cons] at hkeep
      simp [hu] at hkeep
    · rw [if_neg hu]
      rw [walkEntries_eq_filter (dirPath ++ [name]) entries]
      refine List.filter_congr ?_
      intro f hf
      obtain ⟨rest, hne, hpath⟩ := allFilesEntries_path (dirPath ++ [name]) entries f hf
      unfold walkKeeps
      rw [hpath, drop_append_cons, List.drop_left]
      simp [hu]

theorem walkEntries_eq_filter (dirPath : Path) (es : List FSEntry) :
    walkEntries dirPath es = (allFilesEntries dirPath es).filter (walkKeeps dirPath) := by
  cases es with
  | nil => rfl
  | cons e es' =>
    simp only [walkEntries, allFilesEntries, List.filter_append]
    rw [walkEntry_eq_filter dirPath e, walkEntries_eq_filter dirPath es']

end

theorem detect_partition (v : List SrcFile) :
    ((detectEpisodeFiles v).episodes ++ (detectEpisodeFiles v).nonEpisodes).Perm v := by
  by_cases h3 : 3 ≤ v.length
  · rw [detectEpisodeFiles_eq_clustered v h3]
    simp only [detectClustered]
    exact List.filter_append_perm _ v
  · unfold detectEpisodeFiles
    by_cases h0 : v.isEmpty
    · rw [if_pos h0]
      rw [List.isEmpty_iff] at h0
      subst h0
      exact List.Perm.refl _
    · rw [if_neg h0, if_pos (by omega)]
      simp

theorem detect_disjoint (v : List SrcFile) :
    ∀ f ∈ (detectEpisodeFiles v).episodes, f ∉ (detectEpisodeFiles v).nonEpisodes := by
  by_cases h3 : 3 ≤ v.length
  · rw [detectEpisodeFiles_eq_clustered v h3]
    simp only [detectClustered]
    intro f hf hnf
    rw [List.mem_filter] at hf hnf
    have hcontra := hnf.2
    rw [hf.2] at hcontra
    exact absurd hcontra (by simp)
  · unfold detectEpisodeFiles
    by_cases h0 : v.isEmpty
    · rw [if_pos h0]
      intro f hf
      simp at hf
    · rw [if_neg h0, if_pos (by omega)]
      intro f _
      simp

-- ════════════════════════════════════════════════════════════════════
-- Claim C3 — the walk and the detection partition
-- ════════════════════════════════════════════════════════════════════

/-- C3, counterexample.  The claim says the walk excludes only the contents
of `_`-prefixed *subdirectories*, but `listVideoFilesRecursive` skips every
entry whose name starts with `_` — files included.  A folder holding the
single video file `_extra.mkv` therefore detects an empty partition while
the claim's file set is the singleton. -/
theorem C3_counterexample :
    specVideoFiles ["root"] [FSEntry.file "_extra.mkv" 100] =
      [⟨["root", "_extra.mkv"], "_extra.mkv", "_extra.mkv", 100⟩] ∧
    walkEntries ["root"] [FSEntry.file "_extra.mkv" 100] = [] ∧
    ¬ ((detectEpisodeFiles (walkEntries ["root"] [FSEntry.file "_extra.mkv" 100])).episodes ++
        (detectEpisodeFiles
          (walkEntries ["root"] [FSEntry.file "_extra.mkv" 100])).nonEpisodes).Perm
        (specVideoFiles ["root"] [FSEntry.file "_extra.mkv" 100]) := by
  refine ⟨by decide, by decide, ?_⟩
  intro hp
  have hlen := hp.length_eq
  rw [List.length_append] at hlen
  exact absurd hlen (by decide)

/-- C3, amended: `detectEpisodeFiles` partitions exactly the walked video
set into `episodes` and `nonEpisodes` (disjoint, union the walk), and the
walk collects precisely the files with a video extension
(case-insensitive) *no component of whose path below the folder —
the file name included — starts with `_`*: `_`-prefixed files are skipped
just like the contents of `_`-prefixed subdirectories. -/
theorem C3_partition_of_walk (dirPath : Path) (entries : List FSEntry) :
    ((detectEpisodeFiles (walkEntries dirPath entries)).episodes ++
        (detectEpisodeFiles (walkEntries dirPath entries)).nonEpisodes).Perm
      (walkEntries dirPath entries) ∧
    (∀ f ∈ (detectEpisodeFiles (walkEntries dirPath entries)).episodes,
      f ∉ (detectEpisodeFiles (walkEntries dirPath entries)).nonEpisodes) ∧
    walkEntries dirPath entries =
      (allFilesEntries dirPath entries).filter (walkKeeps dirPath) :=
  ⟨detect_partition _, detect_disjoint _, walkEntries_eq_filter dirPath entries⟩

-- ── Review-map lemmas ────────────────────────────────────────────────

theorem find?_mapSet_self (l : List (String × ReviewDecision)) (id : String)
    (d : ReviewDecision) :
    (mapSet l id d).find? (fun e => decide (e.1 = id)) = some (id, d) := by
  induction l with
  | nil => simp [mapSet]
  | cons e rest ih =>
    unfold mapSet
    by_cases he : e.1 = id
    · rw [if_pos he]
      rw [List.find?_cons_of_pos _ (by simp)]
    · rw [if_neg he]
      rw [List.find?_cons_of_neg _ (by simp [he])]
      exact ih

theorem find?_mapSet_other (l : List (String × ReviewDecision)) (id : String)
    (d : ReviewDecision) (id' : String) (h : id' ≠ id) :
    (mapSet l id d).find? (fun e => decide (e.1 = id')) =
      l.find? (fun e => decide (e.1 = id')) := by
  induction l with
  | nil =>
    simp only [mapSet]
    rw [List.find?_cons_of_neg _ (by simp only [decide_eq_true_eq]; exact Ne.symm h)]
  | cons e rest ih =>
    unfold mapSet
    by_cases he : e.1 = id
    · rw [if_pos he]
      rw [List.find?_cons_of_neg _ (by simp only [decide_eq_true_eq]; exact Ne.symm h)]
      rw [List.find?_cons_of_neg _
        (by simp only [decide_eq_true_eq, he]; exact Ne.symm h)]
    · rw [if_neg he]
      by_cases he' : e.1 = id'
      · rw [List.find?_cons_of_pos _ (by simp [he']),
          List.find?_cons_of_pos _ (by simp [he'])]
      · rw [List.find?_cons_of_neg _ (by simp [he']),
          List.find?_cons_of_neg _ (by simp [he'])]
        exact ih

theorem getDecision?_apply_self (st : ReviewState) (d : ReviewDecision) :
    getDecision? (applyReviewDecision st d) d.reviewItemId = some d := by
  unfold getDecision? applyReviewDecision
  rw [find?_mapSet_self]
  rfl

theorem getDecision?_apply_other (st : ReviewState) (d : ReviewDecision) (id' : String)
    (h : id' ≠ d.reviewItemId) :
    getDecision? (applyReviewDecision st d) id' = getDecision? st id' := by
  unfold getDecision? applyReviewDecision
  rw [find?_mapSet_other _ _ _ _ h]

theorem getDecision?_delete_self (st : ReviewState) (id : String) :
    getDecision? (deleteDecision st id) id = none := by
  unfold getDecision? deleteDecision
  have : (st.resolvedReviews.filter (fun e => decide (e.1 ≠ id))).find?
      (fun e => decide (e.1 = id)) = none := by
    rw [List.find?_eq_none]
    intro e he
    have := (List.mem_filter.mp he).2
    simp at this ⊢
    exact this
  rw [this]
  rfl

theorem getDecision?_delete_other (st : ReviewState) (id id' : String) (h : id' ≠ id) :
    getDecision? (deleteDecision st id) id' = getDecision? st id' := by
  unfold getDecision? deleteDecision
  congr 1
  induction st.resolvedReviews with
  | nil => rfl
  | cons e rest ih =>
    rw [List.filter_cons]
    by_cases he : e.1 = id
    · rw [if_neg (by simp [he])]
      rw [List.find?_cons_of_neg _
        (by simp only [decide_eq_true_eq, he]; exact Ne.symm h)]
      exact ih
    · rw [if_pos (by simp [he])]
      by_cases he' : e.1 = id'
      · rw [List.find?_cons_of_pos _ (by simp [he']),
          List.find?_cons_of_pos _ (by simp [he'])]
      · rw [List.find?_cons_of_neg _ (by simp [he']),
          List.find?_cons_of_neg _ (by simp [he'])]
        exact ih

theorem length_filter_le_of_imp (l : List ReviewItem) (p q : ReviewItem → Bool)
    (h : ∀ x ∈ l, p x = true → q x = true) :
    (l.filter p).length ≤ (l.filter q).length := by
  induction l with
  | nil => simp
  | cons a rest ih =>
    have ih' := ih (fun x hx => h x (List.mem_cons_of_mem _ hx))
    rw [List.filter_cons, List.filter_cons]
    by_cases hp : p a = true
    · rw [if_pos hp, if_pos (h a (List.mem_cons_self _ _) hp)]
      simpa using ih'
    · rw [if_neg hp]
      split <;> simp <;> omega

/-- The Bool the `getProgress` query tests for one review item. -/
def pendingPred (st : ReviewState) (r : ReviewItem) : Bool :=
  match getDecision? st r.id with
  | none => true
  | some d => !d.approved

theorem queryPendingReviews_eq_filter (st : ReviewState) :
    queryPendingReviews st = st.pendingReviews.filter (pendingPred st) := rfl

-- ════════════════════════════════════════════════════════════════════
-- Claim C4 — the disc coordinator's review loop
-- ════════════════════════════════════════════════════════════════════

/-- C4, counterexample.  The reasoning string the loop writes into the
user-approved match is `"User-approved"` (capital U), not the claimed
`"user-approved"`. -/
theorem C4_counterexample :
    (buildCorrectedMatch ⟨"Show", [], 0⟩
        ⟨"disc-ep.mkv", "ep.mkv", ["p", "ep.mkv"], "", 1, 2, "t", 1/2, "low"⟩
        ⟨"disc-ep.mkv", true, none, none⟩).reasoning = "User-approved" ∧
    ¬ (buildCorrectedMatch ⟨"Show", [], 0⟩
        ⟨"disc-ep.mkv", "ep.mkv", ["p", "ep.mkv"], "", 1, 2, "t", 1/2, "low"⟩
        ⟨"disc-ep.mkv", true, none, none⟩).reasoning = "user-approved" := by
  constructor
  · rfl
  · intro h
    exact absurd h (by decide)

/-- C4, amended: in the review loop, for every low-confidence item the
coordinator waits for a decision with matching id; on `approved=true` it
copy-renames with season = corrected ?? suggested, episode =
corrected ?? suggested, the episode title looked up from the metadata for
that (season, episode) falling back to `"Episode N"`, confidence `1.0` and
reasoning `"User-approved"` (capital U); on `approved=false` it deletes the
decision and waits again, leaving the queried `pendingReviews` length
unchanged; and the queried `pendingReviews` shrinks only when a decision
with `approved=true` arrives (a rejecting decision for an item not already
resolved-approved leaves the query unchanged). -/
theorem C4_review_loop (meta : SeriesMetadata) (st : ReviewState) (review : ReviewItem)
    (decision : ReviewDecision) (d : ReviewDecision) :
    (getDecision? st review.id = none → processReviewStep meta st review = (st, none)) ∧
    (getDecision? st review.id = some decision → decision.approved = true →
      processReviewStep meta st review =
        (st, some (buildCorrectedMatch meta review decision)) ∧
      (buildCorrectedMatch meta review decision).seasonNumber =
        decision.correctedSeasonNumber.getD review.suggestedSeasonNumber ∧
      (buildCorrectedMatch meta review decision).episodeNumber =
        decision.correctedEpisodeNumber.getD review.suggestedEpisodeNumber ∧
      (buildCorrectedMatch meta review decision).episodeTitle =
        (((meta.seasons.find? (fun s => decide (s.seasonNumber =
              decision.correctedSeasonNumber.getD review.suggestedSeasonNumber))).bind
            (fun s => s.episodes.find? (fun e => decide (e.number =
              decision.correctedEpisodeNumber.getD review.suggestedEpisodeNumber)))).bind
              (fun e => e.title)).getD
          ("Episode " ++ toString
            (decision.correctedEpisodeNumber.getD review.suggestedEpisodeNumber)) ∧
      (buildCorrectedMatch meta review decision).confidence = 1 ∧
      (buildCorrectedMatch meta review decision).reasoning = "User-approved") ∧
    (getDecision? st review.id = some decision → decision.approved = false →
      processReviewStep meta st review = (deleteDecision st review.id, none) ∧
      queryPendingReviews (deleteDecision st review.id) = queryPendingReviews st) ∧
    ((queryPendingReviews (applyReviewDecision st d)).length <
        (queryPendingReviews st).length → d.approved = true) ∧
    (d.approved = false →
      (∀ prior, getDecision? st d.reviewItemId = some prior → prior.approved = false) →
      queryPendingReviews (applyReviewDecision st d) = queryPendingReviews st) := by
  refine ⟨?_, ?_, ?_, ?_, ?_⟩
  · intro hnone
    unfold processReviewStep
    rw [hnone]
  · intro hsome happ
    refine ⟨?_, rfl, rfl, rfl, rfl, rfl⟩
    simp [processReviewStep, hsome, happ]
  · intro hsome happ
    constructor
    · simp [processReviewStep, hsome, happ]
    · rw [queryPendingReviews_eq_filter, queryPendingReviews_eq_filter]
      show (st.pendingReviews.filter (pendingPred (deleteDecision st review.id))) = _
      refine List.filter_congr ?_
      intro r _
      unfold pendingPred
      by_cases hid : r.id = review.id
      · rw [hid, getDecision?_delete_self, hsome]
        simp [happ]
      · rw [getDecision?_delete_other st review.id r.id hid]
  · intro hlt
    by_contra hno
    have hfalse : d.approved = false := by
      cases hd : d.approved
      · rfl
      · exact absurd hd hno
    have hmono := length_filter_le_of_imp st.pendingReviews
      (pendingPred st) (pendingPred (applyReviewDecision st d)) ?_
    · rw [queryPendingReviews_eq_filter, queryPendingReviews_eq_filter,
        show (applyReviewDecision st d).pendingReviews = st.pendingReviews from rfl] at hlt
      omega
    · intro r _ hr
      unfold pendingPred at hr ⊢
      by_cases hid : r.id = d.reviewItemId
      · rw [hid, getDecision?_apply_self]
        simp [hfalse]
      · rw [getDecision?_apply_other st d r.id hid]
        exact hr
  · intro hfalse hprior
    rw [queryPendingReviews_eq_filter, queryPendingReviews_eq_filter]
    refine List.filter_congr ?_
    intro r _
    unfold pendingPred
    by_cases hid : r.id = d.reviewItemId
    · rw [hid, getDecision?_apply_self]
      cases hp : getDecision? st d.reviewItemId with
      | none => simp [hfalse]
      | some prior => simp [hfalse, hprior prior hp]
    · rw [getDecision?_apply_other st d r.id hid]

/-- C4 witness: the amended review-loop behaviour at the concrete fixture:
the approving decision corrects episode 1 to 2, the title `"Two"` is looked
up from the metadata, and a rejecting decision for an unresolved item
leaves the queried `pendingReviews` unchanged. -/
theorem C4_witness :
    processReviewStep metaFix stFix reviewFix =
      (stFix, some (buildCorrectedMatch metaFix reviewFix decFix)) ∧
    (buildCorrectedMatch metaFix reviewFix decFix).seasonNumber = 1 ∧
    (buildCorrectedMatch metaFix reviewFix decFix).episodeNumber = 2 ∧
    (buildCorrectedMatch metaFix reviewFix decFix).episodeTitle = "Two" ∧
    (buildCorrectedMatch metaFix reviewFix decFix).confidence = 1 ∧
    (buildCorrectedMatch metaFix reviewFix decFix).reasoning = "User-approved" ∧
    queryPendingReviews (applyReviewDecision stFix rejFix) = queryPendingReviews stFix := by
  have h := C4_review_loop metaFix stFix reviewFix decFix rejFix
  have happrove := h.2.1 (by rfl) (by rfl)
  refine ⟨happrove.1, by decide, by decide, by decide, by decide, by decide, ?_⟩
  exact h.2.2.2.2 (by rfl) (fun prior hp => Option.noConfusion hp)

-- ── Integrity-verification lemmas ────────────────────────────────────

theorem fsGet?_mem (fs : FS) (p : Path) (v : ℕ) (h : fsGet? fs p = some v) :
    (p, v) ∈ fs := by
  unfold fsGet? at h
  cases hf : fs.find? (fun e => decide (e.1 = p)) with
  | none => rw [hf] at h; exact absurd h (by simp)
  | some e =>
    rw [hf] at h
    have hmem := List.mem_of_find?_eq_some hf
    have hkey : e.1 = p := by simpa using List.find?_some hf
    have hval : e.2 = v := by simpa using h
    rw [← hkey, ← hval]
    exact hmem

theorem verify_matches (fs : FS) (sourceDir outputDir : Path)
    (h : (verifyOutputIntegrity fs sourceDir outputDir).1 = true) :
    ∀ e ∈ filesUnder sourceDir fs,
      fsGet? fs (outputDir ++ relSegs sourceDir e.1) = some e.2 := by
  intro e he
  unfold verifyOutputIntegrity at h
  rw [List.isEmpty_iff, List.filterMap_eq_nil_iff] at h
  have hnone := h e he
  cases hg : fsGet? fs (outputDir ++ relSegs sourceDir e.1) with
  | none =>
    rw [hg] at hnone
    simp at hnone
  | some sz =>
    rw [hg] at hnone
    by_cases hsz : sz = e.2
    · rw [hsz]
    · simp [hsz] at hnone

theorem filesUnder_key_split (d : Path) (fs : FS) :
    ∀ e ∈ filesUnder d fs, e.1 = d ++ relSegs d e.1 ∧ relSegs d e.1 ≠ [] := by
  intro e he
  have hf := (List.mem_filter.mp he).2
  simp only [Bool.and_eq_true, decide_eq_true_eq] at hf
  constructor
  · conv_lhs => rw [← List.take_append_drop d.length e.1]
    rw [hf.1]
    rfl
  · unfold relSegs
    intro hnil
    have := congrArg List.length hnil
    rw [List.length_drop] at this
    simp at this
    omega

theorem sumSizes_le_of_matches (fs : FS) (d1 d2 : Path)
    (hnodup : (fs.map (fun e => e.1)).Nodup)
    (hmatch : ∀ e ∈ filesUnder d1 fs,
      fsGet? fs (d2 ++ relSegs d1 e.1) = some e.2) :
    sumSizes (filesUnder d1 fs) ≤ sumSizes (filesUnder d2 fs) := by
  have hfsnodup : fs.Nodup := List.Nodup.of_map _ hnodup
  have hL1nodup : (filesUnder d1 fs).Nodup := (List.filter_sublist fs).nodup hfsnodup
  have hsubset : ∀ e ∈ filesUnder d1 fs,
      (d2 ++ relSegs d1 e.1, e.2) ∈ filesUnder d2 fs := by
    intro e he
    have hget := hmatch e he
    have hmem := fsGet?_mem fs _ _ hget
    have hrel := (filesUnder_key_split d1 fs e he).2
    refine List.mem_filter.mpr ⟨hmem, ?_⟩

    simp only [Bool.and_eq_true, decide_eq_true_eq]
    constructor
    · exact List.take_left d2 (relSegs d1 e.1)
    · rw [List.length_append]
      have : 0 < (relSegs d1 e.1).length := List.length_pos.mpr hrel
      omega
  have hinj : ∀ x ∈ filesUnder d1 fs, ∀ y ∈ filesUnder d1 fs,
      (fun e : Path × ℕ => (d2 ++ relSegs d1 e.1, e.2)) x =
        (fun e : Path × ℕ => (d2 ++ relSegs d1 e.1, e.2)) y → x = y := by
    intro x hx y hy hxy
    have hx1 := (filesUnder_key_split d1 fs x hx).1
    have hy1 := (filesUnder_key_split d1 fs y hy).1
    have hxy' : (d2 ++ relSegs d1 x.1, x.2) = (d2 ++ relSegs d1 y.1, y.2) := hxy
    have h1 := (Prod.mk.inj hxy').1
    have h2 := (Prod.mk.inj hxy').2
    have hrel : relSegs d1 x.1 = relSegs d1 y.1 := List.append_cancel_left h1
    have hkey : x.1 = y.1 := by rw [hx1, hy1, hrel]
    cases x
    cases y
    simp only [Prod.mk.injEq]
    exact ⟨hkey, h2⟩
  have hmapnodup :
      ((filesUnder d1 fs).map (fun e : Path × ℕ => (d2 ++ relSegs d1 e.1, e.2))).Nodup :=
    List.Nodup.map_on hinj hL1nodup
  have hsubperm : List.Subperm
      ((filesUnder d1 fs).map (fun e : Path × ℕ => (d2 ++ relSegs d1 e.1, e.2)))
      (filesUnder d2 fs) :=
    List.subperm_of_subset hmapnodup (by
      intro x hx
      obtain ⟨e, he, rfl⟩ := List.mem_map.mp hx
      exact hsubset e he)
  obtain ⟨l, hperm, hsub⟩ := hsubperm
  have hsum1 : sumSizes (filesUnder d1 fs) = sumSizes
      ((filesUnder d1 fs).map (fun e : Path × ℕ => (d2 ++ relSegs d1 e.1, e.2))) := by
    unfold sumSizes
    rw [List.map_map]
    rfl
  have hsum2 : sumSizes
      ((filesUnder d1 fs).map (fun e : Path × ℕ => (d2 ++ relSegs d1 e.1, e.2))) =
      sumSizes l := by
    unfold sumSizes
    exact (List.Perm.sum_eq (hperm.map (fun e => e.2))).symm
  have hsum3 : sumSizes l ≤ sumSizes (filesUnder d2 fs) := by
    unfold sumSizes
    exact List.Sublist.sum_le_sum (hsub.map (fun e => e.2)) (fun a _ => Nat.zero_le a)
  omega

-- ════════════════════════════════════════════════════════════════════
-- Claim C7 — integrity verification and byte totals
-- ════════════════════════════════════════════════════════════════════

/-- C7, counterexample.  `verifyOutputIntegrity` only walks the *staging*
side: an output directory holding an extra file passes verification while
the byte totals differ (10 vs 15). -/
theorem C7_counterexample :
    (verifyOutputIntegrity
        [(["staging", "a"], 10), (["output", "a"], 10), (["output", "b"], 5)]
        ["staging"] ["output"]).1 = true ∧
    sumSizes (filesUnder ["staging"]
      [(["staging", "a"], 10), (["output", "a"], 10), (["output", "b"], 5)]) = 10 ∧
    sumSizes (filesUnder ["output"]
      [(["staging", "a"], 10), (["output", "a"], 10), (["output", "b"], 5)]) = 15 ∧
    ¬ (sumSizes (filesUnder ["staging"]
          [(["staging", "a"], 10), (["output", "a"], 10), (["output", "b"], 5)]) =
        sumSizes (filesUnder ["output"]
          [(["staging", "a"], 10), (["output", "a"], 10), (["output", "b"], 5)])) := by
  refine ⟨by decide, by decide, by decide, by decide⟩

/-- C7, amended: if `verifyOutputIntegrity(staging, output)` returns
`verified = true` then every file of the staging walk has an output file at
the same relative path with identical size, hence the staging byte total is
*at most* the output byte total; the totals are equal when additionally
every output file corresponds to a staging file (no extra files below the
output directory). -/
theorem C7_verify_byte_totals (fs : FS) (stagingDir outputDir : Path)
    (hnodup : (fs.map (fun e => e.1)).Nodup)
    (hver : (verifyOutputIntegrity fs stagingDir outputDir).1 = true) :
    (∀ e ∈ filesUnder stagingDir fs,
      fsGet? fs (outputDir ++ relSegs stagingDir e.1) = some e.2) ∧
    sumSizes (filesUnder stagingDir fs) ≤ sumSizes (filesUnder outputDir fs) ∧
    ((∀ e ∈ filesUnder outputDir fs,
        fsGet? fs (stagingDir ++ relSegs outputDir e.1) = some e.2) →
      sumSizes (filesUnder stagingDir fs) = sumSizes (filesUnder outputDir fs)) := by
  have hmatch := verify_matches fs stagingDir outputDir hver
  refine ⟨hmatch, sumSizes_le_of_matches fs stagingDir outputDir hnodup hmatch, ?_⟩
  intro hback
  have hge := sumSizes_le_of_matches fs outputDir stagingDir hnodup hback
  have hle := sumSizes_le_of_matches fs stagingDir outputDir hnodup hmatch
  omega

/-- C7 witness: the amended totals statement at a mirror-image concrete
filesystem, where the equality case applies. -/
theorem C7_witness :
    (∀ e ∈ filesUnder ["staging"] [(["staging", "a"], 10), (["output", "a"], 10)],
      fsGet? [(["staging", "a"], 10), (["output", "a"], 10)]
        (["output"] ++ relSegs ["staging"] e.1) = some e.2) ∧
    sumSizes (filesUnder ["staging"] [(["staging", "a"], 10), (["output", "a"], 10)]) ≤
      sumSizes (filesUnder ["output"] [(["staging", "a"], 10), (["output", "a"], 10)]) ∧
    ((∀ e ∈ filesUnder ["output"] [(["staging", "a"], 10), (["output", "a"], 10)],
        fsGet? [(["staging", "a"], 10), (["output", "a"], 10)]
          (["staging"] ++ relSegs ["output"] e.1) = some e.2) →
      sumSizes (filesUnder ["staging"] [(["staging", "a"], 10), (["output", "a"], 10)]) =
        sumSizes (filesUnder ["output"] [(["staging", "a"], 10), (["output", "a"], 10)])) :=
  C7_verify_byte_totals [(["staging", "a"], 10), (["output", "a"], 10)]
    ["staging"] ["output"] (by decide) (by decide)

-- ── Plex-name parsing lemmas ─────────────────────────────────────────

theorem toList_append (s t : String) : (s ++ t).toList = s.toList ++ t.toList :=
  String.data_append s t

theorem padTwo_digits : ∀ n < 100,
    (padTwo n).toList = [Char.ofNat (48 + n / 10), Char.ofNat (48 + n % 10)] ∧
    (Char.ofNat (48 + n / 10)).isDigit = true ∧
    (Char.ofNat (48 + n % 10)).isDigit = true ∧
    10 * digitVal (Char.ofNat (48 + n / 10)) + digitVal (Char.ofNat (48 + n % 10)) = n := by
  decide

theorem tryParseSToken_cons (c1 c2 c3 c4 : Char) (t : List Char) :
    tryParseSToken ('-' :: ' ' :: 'S' :: c1 :: c2 :: 'E' :: c3 :: c4 :: t) =
      if c1.isDigit && c2.isDigit && c3.isDigit && c4.isDigit then
        some (10 * digitVal c1 + digitVal c2, 10 * digitVal c3 + digitVal c4)
      else none := rfl

theorem tryParseSToken_canonical (ss ee : ℕ) (hss : ss < 100) (hee : ee < 100)
    (tail : List Char) :
    tryParseSToken ('-' :: ' ' :: 'S' :: ((padTwo ss).toList ++ 'E' ::
      ((padTwo ee).toList ++ tail))) = some (ss, ee) := by
  obtain ⟨hs1, hs2, hs3, hs4⟩ := padTwo_digits ss hss
  obtain ⟨he1, he2, he3, he4⟩ := padTwo_digits ee hee
  rw [hs1, he1]
  simp only [List.cons_append, List.nil_append]
  rw [tryParseSToken_cons, if_pos (by simp [hs2, hs3, he2, he3]), hs4, he4]

theorem scanSToken_append (xs ys : List Char) (h : cleanBefore xs ys = true) :
    scanSToken (xs ++ ys) = scanSToken ys := by
  induction xs with
  | nil => rfl
  | cons c rest ih =>
    unfold cleanBefore at h
    rw [Bool.and_eq_true] at h
    have h1 : tryParseSToken (c :: (rest ++ ys)) = none :=
      Option.isNone_iff_eq_none.mp h.1
    rw [List.cons_append]
    simp only [scanSToken, h1]
    exact ih h.2

theorem parse_plexFileName (showName : String) (ss ee : ℕ) (title ext : String)
    (hss : ss ≤ 99) (hee : ee ≤ 99)
    (hclean : cleanBefore (showName.toList ++ [' '])
      ('-' :: ' ' :: 'S' :: ((padTwo ss).toList ++ 'E' ::
        ((padTwo ee).toList ++ (plexTail title ext).toList))) = true) :
    parseSeasonEpisode (plexFileName showName (padTwo ss) (padTwo ee) title ext) =
      some (ss, ee) := by
  have hsS : (" - S" : String).toList = [' ', '-', ' ', 'S'] := rfl
  have hE : ("E" : String).toList = ['E'] := rfl
  have hsT : (" - " : String).toList = [' ', '-', ' '] := rfl
  have hlist : (plexFileName showName (padTwo ss) (padTwo ee) title ext).toList =
      (showName.toList ++ [' ']) ++ ('-' :: ' ' :: 'S' :: ((padTwo ss).toList ++ 'E' ::
        ((padTwo ee).toList ++ (plexTail title ext).toList))) := by
    unfold plexFileName plexTail
    by_cases ht : title = ""
    · rw [if_neg (by simp [ht]), if_neg (by simp [ht])]
      simp [toList_append, hsS, hE, List.append_assoc]
    · rw [if_pos ht, if_pos ht]
      simp [toList_append, hsS, hE, hsT, List.append_assoc]
  unfold parseSeasonEpisode
  rw [hlist, scanSToken_append _ _ hclean]
  have hcanon := tryParseSToken_canonical ss ee (by omega) (by omega)
    (plexTail title ext).toList
  simp only [scanSToken, hcanon]

theorem copyEpisodeToWorkDir_ok_record (fs : FS) (m : EpisodeMatch)
    (anime : AnimeSearchResult) (episodesDir seriesRootDir : Path) (dryRun : Bool)
    (fs' : FS) (r : RenamedFile)
    (hok : copyEpisodeToWorkDir fs m anime episodesDir seriesRootDir dryRun = .ok (fs', r)) :
    r = plexRecord m anime episodesDir seriesRootDir := by
  by_cases hdry : dryRun = true
  · simp [copyEpisodeToWorkDir, hdry] at hok
    exact hok.2.symm
  · cases hdest : fsGet? fs (plexRecord m anime episodesDir seriesRootDir).newPath with
    | some sz =>
      simp [copyEpisodeToWorkDir, hdry, hdest] at hok
      exact hok.2.symm
    | none =>
      cases hsrc : fsGet? fs m.filePath with
      | some size =>
        simp [copyEpisodeToWorkDir, hdry, hdest, hsrc] at hok
        exact hok.2.symm
      | none =>
        simp [copyEpisodeToWorkDir, hdry, hdest, hsrc] at hok

-- ════════════════════════════════════════════════════════════════════
-- Claim C8 — round-trip of the S<ss>E<ee> token
-- ════════════════════════════════════════════════════════════════════

/-- C8, counterexample.  `padStart(2, '0')` does not cap at two digits and
the token parse reads exactly two: a match for episode 100 produces
`"Show - S01E100.mkv"`, which parses back as episode 10; and a show name
that itself contains a `- S<dd>E<dd>` pattern captures the first-match
parse, so `"My - S99E99 Show - S01E02.mkv"` parses as S99E99 rather than
the match's (1, 2). -/
theorem C8_counterexample :
    (plexRecord ⟨"ep.mkv", ["root", "ep.mkv"], 1, 100, "", 1, "llm"⟩
        ⟨1, ⟨"Show", some "Show", none⟩, some 120, "TV", "FINISHED"⟩
        ["root", "_episodes"] ["root"]).newFileName = "Show - S01E100.mkv" ∧
    parseSeasonEpisode (plexRecord ⟨"ep.mkv", ["root", "ep.mkv"], 1, 100, "", 1, "llm"⟩
        ⟨1, ⟨"Show", some "Show", none⟩, some 120, "TV", "FINISHED"⟩
        ["root", "_episodes"] ["root"]).newFileName = some (1, 10) ∧
    ¬ parseSeasonEpisode (plexRecord ⟨"ep.mkv", ["root", "ep.mkv"], 1, 100, "", 1, "llm"⟩
        ⟨1, ⟨"Show", some "Show", none⟩, some 120, "TV", "FINISHED"⟩
        ["root", "_episodes"] ["root"]).newFileName = some (1, 100) ∧
    parseSeasonEpisode (plexRecord ⟨"x.mkv", ["root", "x.mkv"], 1, 2, "", 1, "llm"⟩
        ⟨1, ⟨"My - S99E99 Show", some "My - S99E99 Show", none⟩, some 12, "TV", "FINISHED"⟩
        ["root", "_episodes"] ["root"]).newFileName = some (99, 99) ∧
    ¬ parseSeasonEpisode (plexRecord ⟨"x.mkv", ["root", "x.mkv"], 1, 2, "", 1, "llm"⟩
        ⟨1, ⟨"My - S99E99 Show", some "My - S99E99 Show", none⟩, some 12, "TV", "FINISHED"⟩
        ["root", "_episodes"] ["root"]).newFileName = some (1, 2) := by
  refine ⟨by decide, by decide, by decide, by decide, by decide⟩

/-- C8, amended: for every file renamed by `copyEpisodeToWorkDir` whose
season and episode numbers are at most 99 and whose sanitized show-name
region contains no `- S<dd>E<dd>` token of its own, the produced name
follows `<Show> - S<ss>E<ee>[ - <Title>].<ext>` with two-digit zero-padded
numbers and parsing the first `S<ss>E<ee>` token from the basename
reproduces `(seasonNumber, episodeNumber)`; numbers of three or more
digits, or adversarial show names, break the two-digit round trip (see the
counterexample). -/
theorem C8_plex_roundtrip (fs : FS) (m : EpisodeMatch) (anime : AnimeSearchResult)
    (episodesDir seriesRootDir : Path) (dryRun : Bool) (fs' : FS) (r : RenamedFile)
    (hok : copyEpisodeToWorkDir fs m anime episodesDir seriesRootDir dryRun = .ok (fs', r))
    (hss : m.seasonNumber ≤ 99) (hee : m.episodeNumber ≤ 99)
    (hclean : cleanBefore
      ((sanitizeFileName (anime.title.english.getD anime.title.romaji)).toList ++ [' '])
      ('-' :: ' ' :: 'S' :: ((padTwo m.seasonNumber).toList ++ 'E' ::
        ((padTwo m.episodeNumber).toList ++
          (plexTail (sanitizeFileName m.episodeTitle)
            (extnameStr (m.filePath.getLastD ""))).toList))) = true) :
    r.newFileName = plexFileName
      (sanitizeFileName (anime.title.english.getD anime.title.romaji))
      (padTwo m.seasonNumber) (padTwo m.episodeNumber)
      (sanitizeFileName m.episodeTitle) (extnameStr (m.filePath.getLastD "")) ∧
    parseSeasonEpisode r.newFileName = some (m.seasonNumber, m.episodeNumber) := by
  have hrec := copyEpisodeToWorkDir_ok_record fs m anime episodesDir seriesRootDir
    dryRun fs' r hok
  have hname : r.newFileName = plexFileName
      (sanitizeFileName (anime.title.english.getD anime.title.romaji))
      (padTwo m.seasonNumber) (padTwo m.episodeNumber)
      (sanitizeFileName m.episodeTitle) (extnameStr (m.filePath.getLastD "")) := by
    rw [hrec]
    rfl
  refine ⟨hname, ?_⟩
  rw [hname]
  exact parse_plexFileName _ _ _ _ _ hss hee hclean

/-- C8 witness: the round trip at a concrete match (S01E02 with title
`"Pilot"`). -/
theorem C8_witness :
    (plexRecord (⟨"ep.mkv", ["root", "disc", "ep.mkv"], 1, 2, "Pilot", 9/10, "llm"⟩ :
          EpisodeMatch)
        (⟨1, ⟨"Show", some "Show", none⟩, some 12, "TV", "FINISHED"⟩ : AnimeSearchResult)
        ["root", "_episodes"] ["root"]).newFileName =
      plexFileName "Show" (padTwo 1) (padTwo 2) "Pilot" ".mkv" ∧
    parseSeasonEpisode
      (plexRecord (⟨"ep.mkv", ["root", "disc", "ep.mkv"], 1, 2, "Pilot", 9/10, "llm"⟩ :
          EpisodeMatch)
        (⟨1, ⟨"Show", some "Show", none⟩, some 12, "TV", "FINISHED"⟩ : AnimeSearchResult)
        ["root", "_episodes"] ["root"]).newFileName = some (1, 2) := by
  have h := C8_plex_roundtrip []
    (⟨"ep.mkv", ["root", "disc", "ep.mkv"], 1, 2, "Pilot", 9/10, "llm"⟩ : EpisodeMatch)
    (⟨1, ⟨"Show", some "Show", none⟩, some 12, "TV", "FINISHED"⟩ : AnimeSearchResult)
    ["root", "_episodes"] ["root"] true []
    (plexRecord (⟨"ep.mkv", ["root", "disc", "ep.mkv"], 1, 2, "Pilot", 9/10, "llm"⟩ :
        EpisodeMatch)
      (⟨1, ⟨"Show", some "Show", none⟩, some 12, "TV", "FINISHED"⟩ : AnimeSearchResult)
      ["root", "_episodes"] ["root"])
    (by rfl) (by decide) (by decide) (by decide)
  exact ⟨h.1, h.2⟩

end Seraex
